import Mathlib

/-!
Formal model (shallow embedding) of the lexical normalization and retrieval
engine of the quran_chatbot repository, together with theorems settling the
frozen claims about its specification.

Strings are modelled as lists over an enumerated alphabet `ACh` covering the
Arabic block characters this code manipulates (letters, hamza carriers, the
combining marks, tatwil and the space).  Every definition is translated from
the Python source:

* `utils/arabic.py`                                  — `strip_diacritics`, `normalize`
* `services/retrievers/morphology_retriever.py`      — `_variants`, `_concat`, `smart_exact_match`
* `services/retrievers/root_retriever.py`            — `_normalize_root`, `root_lookup_combined`
* `services/retrievers/dictionary_retriever.py`      — `lookup_definition`
* `services/extractors/root_ayah_extraction.py`      — `RootAyahExtraction`
* `services/retrievers/dispatcher.py`                — `lemma_match`, `lemma_match_surah_filter`,
  `root_match`, the dispatch table and `dispatch_retrieval`

Python `unicodedata.normalize("NFD", ·)` is modelled by the canonical
decomposition table `nfdD` restricted to this alphabet (values checked against
the Unicode character database); the canonical reordering NFD additionally
performs only permutes combining marks of distinct combining classes, and the
functions below treat every combining mark other than the shadda identically,
so it is immaterial to `strip_diacritics` and is not modelled.
-/

set_option maxRecDepth 100000

namespace QC

/-- Alphabet of modelled characters.  Each constructor is one Unicode code
point, named after its Unicode character name. -/
inductive ACh where
  | hamza          -- ء U+0621
  | alefMadda      -- آ U+0622
  | alefHamzaA     -- أ U+0623 (hamza above)
  | wawHamza       -- ؤ U+0624
  | alefHamzaB     -- إ U+0625 (hamza below)
  | yehHamza       -- ئ U+0626
  | alef           -- ا U+0627
  | beh            -- ب U+0628
  | tehMarbuta     -- ة U+0629
  | teh            -- ت U+062A
  | theh           -- ث U+062B
  | jeem           -- ج U+062C
  | hah            -- ح U+062D
  | khah           -- خ U+062E
  | dal            -- د U+062F
  | thal           -- ذ U+0630
  | reh            -- ر U+0631
  | zain           -- ز U+0632
  | seen           -- س U+0633
  | sheen          -- ش U+0634
  | sad            -- ص U+0635
  | dad            -- ض U+0636
  | tah            -- ط U+0637
  | zah            -- ظ U+0638
  | ain            -- ع U+0639
  | ghain          -- غ U+063A
  | tatweel        -- ـ U+0640 (kashida)
  | feh            -- ف U+0641
  | qaf            -- ق U+0642
  | kaf            -- ك U+0643
  | lam            -- ل U+0644
  | meem           -- م U+0645
  | noon           -- ن U+0646
  | heh            -- ه U+0647
  | waw            -- و U+0648
  | alefMaksura    -- ى U+0649
  | yeh            -- ي U+064A
  | fathatan       -- ً U+064B (combining, class 27)
  | dammatan       -- ٌ U+064C (combining, class 28)
  | kasratan       -- ٍ U+064D (combining, class 29)
  | fatha          -- َ U+064E (combining, class 30)
  | damma          -- ُ U+064F (combining, class 31)
  | kasra          -- ِ U+0650 (combining, class 32)
  | shadda         -- ّ U+0651 (combining, class 33)
  | sukun          -- ْ U+0652 (combining, class 34)
  | maddaAbove     -- ٓ U+0653 (combining, class 230)
  | hamzaAbove     -- ٔ U+0654 (combining, class 230)
  | hamzaBelow     -- ٕ U+0655 (combining, class 220)
  | daggerAlef     -- ٰ U+0670 (superscript alef, combining, class 35)
  | alefWasla      -- ٱ U+0671
  | space          -- U+0020
deriving DecidableEq, Fintype

/-- Canonical (NFD) decomposition of a modelled character, per the Unicode
character database.  Of this alphabet exactly the five precomposed
hamza/madda carriers decompose; in particular U+0671 (alef wasla), U+0649 and
U+0629 have no canonical decomposition. -/
def nfdD : ACh → List ACh
  | .alefMadda  => [.alef, .maddaAbove]    -- آ → ا + ٓ
  | .alefHamzaA => [.alef, .hamzaAbove]    -- أ → ا + ٔ
  | .wawHamza   => [.waw, .hamzaAbove]     -- ؤ → و + ٔ
  | .alefHamzaB => [.alef, .hamzaBelow]    -- إ → ا + ٕ
  | .yehHamza   => [.yeh, .hamzaAbove]     -- ئ → ي + ٔ
  | c => [c]

/-- Test of `unicodedata.combining(ch) != 0` on the modelled alphabet. -/
def combining : ACh → Bool
  | .fathatan | .dammatan | .kasratan | .fatha | .damma | .kasra
  | .shadda | .sukun | .maddaAbove | .hamzaAbove | .hamzaBelow
  | .daggerAlef => true
  | _ => false

/-- Body of the per-character loop of `strip_diacritics` (utils/arabic.py):
promote the dagger alef to a plain alef, keep the shadda, drop every other
combining mark, keep everything else. -/
def stripKeep (c : ACh) : List ACh :=
  if c = .daggerAlef then [.alef]
  else if c = .shadda then [c]
  else if combining c then []
  else [c]

/-- Contribution of one input character to the output of `strip_diacritics`:
NFD decomposition followed by the keep/drop/promote loop body. -/
def stripUnit (c : ACh) : List ACh := (nfdD c).flatMap stripKeep

/-- Model of `strip_diacritics` (utils/arabic.py): NFD-decompose the text, then
filter, where the guard for the empty string in the source is the identity on
this representation. -/
def strip_diacritics (s : List ACh) : List ACh := s.flatMap stripUnit

/-- Model of the `str.translate(_AR_REMAP)` table of utils/arabic.py on one
character: إ آ ٱ → ا, ى ئ → ي, ؤ → و, tatwil deleted. -/
def remapChar : ACh → List ACh
  | .alefHamzaB => [.alef]
  | .alefMadda  => [.alef]
  | .alefWasla  => [.alef]
  | .alefMaksura => [.yeh]
  | .yehHamza   => [.yeh]
  | .wawHamza   => [.waw]
  | .tatweel    => []
  | c => [c]

/-- Model of `str.translate(_AR_REMAP)` on a string. -/
def translateRemap (s : List ACh) : List ACh := s.flatMap remapChar

/-- Model of Python `str.lstrip()` restricted to the modelled space. -/
def lstrip (s : List ACh) : List ACh := s.dropWhile (· = ACh.space)

/-- Model of Python `str.rstrip()` restricted to the modelled space: drop the
trailing run of spaces. -/
def rstrip : List ACh → List ACh
  | [] => []
  | c :: t =>
    match rstrip t with
    | [] => if c = ACh.space then [] else [c]
    | r => c :: r

/-- Model of Python `str.strip()`. -/
def pyStrip (s : List ACh) : List ACh := rstrip (lstrip s)

/-- Test of `text.startswith((أ, إ, آ))` on a first character. -/
def isHamzaStart : ACh → Bool
  | .alefHamzaA | .alefHamzaB | .alefMadda => true
  | _ => false

/-- Model of `normalize` (utils/arabic.py): strip diacritics, then apply the
hamza-preservation branch (`text[0] + text[1:].translate(_AR_REMAP)` when the
stripped text starts with أ إ آ, otherwise translate the whole string), then
trim.  The `if not text` guards of the source are identities here. -/
def normalize (s : List ACh) : List ACh :=
  pyStrip
    (match strip_diacritics s with
     | [] => []
     | c :: rest =>
       if isHamzaStart c then c :: translateRemap rest
       else translateRemap (c :: rest))

/-- A character is inert when the diacritic-stripping stage, the remap table
and the leading-hamza test all leave it alone. -/
def inert (c : ACh) : Prop :=
  stripUnit c = [c] ∧ remapChar c = [c] ∧ isHamzaStart c = false

instance (c : ACh) : Decidable (inert c) :=
  inferInstanceAs (Decidable (stripUnit c = [c] ∧ remapChar c = [c] ∧ isHamzaStart c = false))

/-- A character untouched by the diacritic-stripping stage. -/
def stripStable (c : ACh) : Prop := stripUnit c = [c]

instance (c : ACh) : Decidable (stripStable c) :=
  inferInstanceAs (Decidable (stripUnit c = [c]))

/-- One line of the morphology corpus (quran_morphology.jsonl).  The optional
string fields `lemma` and `root` of the source are modelled as plain lists
where `[]` stands for a missing or empty value: the source only ever tests
them for truthiness (where `None` and `""` behave identically) and compares
them as strings.  The field `lemma` is spelled `lem` because `lemma` is a
reserved word here. -/
structure Token where
  surah : Nat
  ayah : Nat
  word_index : Nat
  token_index : Nat
  token : List ACh
  lem : List ACh
  root : List ACh
deriving DecidableEq

/-- Model of `_group_key` (morphology_retriever.py). -/
def _group_key (t : Token) : Nat × Nat × Nat := (t.surah, t.ayah, t.word_index)

/-- Comparison key used by `_concat`: ascending token_index. -/
def tokIdxLE (a b : Token) : Prop := a.token_index ≤ b.token_index

instance : DecidableRel tokIdxLE :=
  fun a b => inferInstanceAs (Decidable (a.token_index ≤ b.token_index))

/-- Model of `_concat` (morphology_retriever.py): concatenate the raw token
strings in ascending token_index order.  `List.insertionSort` is stable, like
Python `sorted`. -/
def _concat (toks : List Token) : List ACh :=
  (List.insertionSort tokIdxLE toks).flatMap (fun t => t.token)

/-- Model of `_PROCLITICS` (morphology_retriever.py): {ك, ف, ب, ل, س, و}. -/
def _PROCLITICS : List ACh := [.kaf, .feh, .beh, .lam, .seen, .waw]

/-- Model of the imperfect-verb prefix set of morphology_retriever.py
(source name with the S removed): {أ, إ, آ, ي, ت, ن}. -/
def _IMPF_LETTERS : List ACh := [.alefHamzaA, .alefHamzaB, .alefMadda, .yeh, .teh, .noon]

/-- Model of `w.replace(m, "")` for a single character m. -/
def removeAll (m : ACh) (w : List ACh) : List ACh := w.filter (fun c => decide (c ≠ m))

/-- Stage 1 of `_variants`: optional removal of a single proclitic, guarded by
the root-initial protection and by the future-particle restriction on س.
The truthiness test `root_initial and word[0] == root_initial` of the source
is `root_initial = some c0` here (a present root initial is a one-character
string, always truthy). -/
def variantStage1 (word : List ACh) (root_initial : Option ACh) : Finset (List ACh) :=
  match word with
  | c0 :: c1 :: rest =>
    if 3 < (c0 :: c1 :: rest : List ACh).length ∧ c0 ∈ _PROCLITICS then
      if root_initial = some c0 then {c0 :: c1 :: rest}
      else if c0 = ACh.seen then
        if c1 ∈ _IMPF_LETTERS then {c0 :: c1 :: rest, c1 :: rest}
        else {c0 :: c1 :: rest}
      else {c0 :: c1 :: rest, c1 :: rest}
    else {c0 :: c1 :: rest}
  | w => {w}

/-- Stage 2 of `_variants`: for every form so far that starts with the
definite article ال and is longer than 3, add a copy without it. -/
def variantStage2 (word : List ACh) (root_initial : Option ACh) : Finset (List ACh) :=
  variantStage1 word root_initial ∪
    (variantStage1 word root_initial).biUnion (fun w =>
      if w.take 2 = [ACh.alef, ACh.lam] ∧ 3 < w.length then {w.drop 2} else ∅)

/-- Model of `_variants` (morphology_retriever.py): stage 2 plus, for every
form, tanwin removal (each of ً ٍ ٌ removed separately when present) and
trailing-alif removal (when the form ends in ا and is longer than 3).  The
source iterates over a snapshot `list(forms)`, so additions made by this last
loop are not themselves expanded — exactly this union. -/
def _variants (word : List ACh) (root_initial : Option ACh) : Finset (List ACh) :=
  variantStage2 word root_initial ∪
    (variantStage2 word root_initial).biUnion (fun w =>
      (if ACh.fathatan ∈ w then {removeAll ACh.fathatan w} else ∅) ∪
      (if ACh.kasratan ∈ w then {removeAll ACh.kasratan w} else ∅) ∪
      (if ACh.dammatan ∈ w then {removeAll ACh.dammatan w} else ∅) ∪
      (if w.getLast? = some ACh.alef ∧ 3 < w.length then {w.dropLast} else ∅))

/-- Insertion of one token into the insertion-ordered grouping dict
`token_groups.setdefault(key, []).append(tok)` of `smart_exact_match`. -/
def groupInsert (gs : List ((Nat × Nat × Nat) × List Token)) (t : Token) :
    List ((Nat × Nat × Nat) × List Token) :=
  if gs.any (fun g => decide (g.1 = _group_key t)) then
    gs.map (fun g => if g.1 = _group_key t then (g.1, g.2 ++ [t]) else g)
  else gs ++ [(_group_key t, [t])]

/-- Grouping of the corpus lines into verse-words, in file order of first
appearance (Python dicts preserve key insertion order). -/
def groupTokens (toks : List Token) : List ((Nat × Nat × Nat) × List Token) :=
  toks.foldl groupInsert []

/-- Lemma rule of `smart_exact_match`: the first token of the group carries a
truthy lemma whose normalization equals the normalized query. -/
def wordLemmaMatch (q_norm : List ACh) (toks : List Token) : Bool :=
  match toks with
  | [] => false
  | t0 :: _ => decide (t0.lem ≠ [] ∧ normalize t0.lem = q_norm)

/-- Root-initial extraction of `smart_exact_match`:
`(toks[0].get("root") or "")[:1] if toks[0].get("root") else None`. -/
def rootInitial (toks : List Token) : Option ACh :=
  match toks with
  | [] => none
  | t0 :: _ => if t0.root ≠ [] then t0.root.head? else none

/-- Surface rule of `smart_exact_match`: variant sets of the normalized query
(no root protection is passed there) and of the normalized concatenated
surface (with the root initial of the first token) intersect. -/
def surfaceStep (q_norm : List ACh) (toks : List Token) : Bool :=
  decide ((_variants q_norm none ∩
    _variants (normalize (_concat toks)) (rootInitial toks)).Nonempty)

/-- Root rule of `smart_exact_match`: the first token of the group carries a
truthy root whose normalization equals the normalized query. -/
def wordRootMatch (q_norm : List ACh) (toks : List Token) : Bool :=
  match toks with
  | [] => false
  | t0 :: _ => decide (t0.root ≠ [] ∧ normalize t0.root = q_norm)

/-- Which rule produced a match, mirroring the diagnostic note strings of
`smart_exact_match` (exact lemma / surface / exact root / not located). -/
inductive MatchNote where
  | exactLemma (surah ayah word_index : Nat)
  | surfaceVariant (surah ayah word_index : Nat)
  | exactRoot (surah ayah word_index : Nat)
  | notFound
deriving DecidableEq

/-- The scan loop of `smart_exact_match`: per group, lemma rule first, then
surface rule, then root rule; the first success returns immediately. -/
def smartGo (q_norm : List ACh) :
    List ((Nat × Nat × Nat) × List Token) → Option (List Token) × MatchNote
  | [] => (none, .notFound)
  | (k, toks) :: rest =>
    if wordLemmaMatch q_norm toks then (some toks, .exactLemma k.1 k.2.1 k.2.2)
    else if surfaceStep q_norm toks then (some toks, .surfaceVariant k.1 k.2.1 k.2.2)
    else if wordRootMatch q_norm toks then (some toks, .exactRoot k.1 k.2.1 k.2.2)
    else smartGo q_norm rest

/-- Model of `smart_exact_match` (morphology_retriever.py) over an in-memory
corpus (the file-missing branch is file-system behaviour, out of scope). -/
def smart_exact_match (query_word : List ACh) (corpus : List Token) :
    Option (List Token) × MatchNote :=
  smartGo (normalize query_word) (groupTokens corpus)

/-- Disjunction of the three per-group rules, in the order the scan tries
them. -/
def wordMatches (q_norm : List ACh) (toks : List Token) : Bool :=
  wordLemmaMatch q_norm toks || surfaceStep q_norm toks || wordRootMatch q_norm toks

/-- Model of `str.replace(a, b)` for single characters a, b. -/
def chrep (a b : ACh) (w : List ACh) : List ACh :=
  w.map (fun c => if c = a then b else c)

/-- Model of `_normalize_root` (root_retriever.py): أ إ آ → ا, drop the four
short-vowel marks fatha/damma/kasra/sukun (keeping shadda and everything
else, tanwin included), then ى → ي and ة → ه; the innermost application is
the first replace of the source. -/
def _normalize_root (root : List ACh) : List ACh :=
  chrep .tehMarbuta .heh (chrep .alefMaksura .yeh
    (removeAll .sukun (removeAll .kasra (removeAll .damma (removeAll .fatha
      (chrep .alefMadda .alef (chrep .alefHamzaB .alef
        (chrep .alefHamzaA .alef root))))))))

/-- One row of root_analysis.jsonl; only the two fields the lookup reads are
modelled, with `[]` for a missing or empty value. -/
structure GEntry where
  root_stripped : List ACh
  root : List ACh
deriving DecidableEq

/-- Model of `entry.get("root_stripped") or entry.get("root")`. -/
def entryRoot (e : GEntry) : List ACh :=
  if e.root_stripped ≠ [] then e.root_stripped else e.root

/-- Model of `root_lookup_combined` (root_retriever.py) over an in-memory
entry list: first entry whose normalized root equals the normalized key
(the file-missing branch and the debug printing are out of scope). -/
def root_lookup_combined (root : List ACh) (entries : List GEntry) : Option GEntry :=
  entries.find? (fun e => decide (_normalize_root (entryRoot e) = _normalize_root root))

/-- One row of the dictionary dump; only the headword is compared, with a
definition payload carried along. -/
structure DEntry where
  word : List ACh
  defn : List ACh
deriving DecidableEq

/-- Model of `lookup_definition` (dictionary_retriever.py): first entry whose
normalized headword equals the normalized query word. -/
def lookup_definition (word : List ACh) (entries : List DEntry) : Option DEntry :=
  entries.find? (fun e => decide (normalize e.word = normalize word))

/-- Modelled from the spec words of claim C8 (the comparison target of the
refinement claim): the Normalizer normalize followed by the additional
mappings ة→ه and ى→ي. -/
def lookupSpecNorm (k : List ACh) : List ACh :=
  chrep .alefMaksura .yeh (chrep .tehMarbuta .heh (normalize k))

/-- Characters on which the root-glossary normalization and the composed
spec normalization agree: the plain letters (ء ... ي, including أ إ آ ى ة),
the shadda and the four short-vowel marks.  Outside it (tanwin, dagger alef,
tatwil, ؤ ئ ٱ, the bare combining hamza marks, whitespace) the two differ. -/
def lookupAgreeChar (c : ACh) : Prop :=
  c ∈ ([.hamza, .alefMadda, .alefHamzaA, .alefHamzaB, .alef, .beh, .tehMarbuta,
    .teh, .theh, .jeem, .hah, .khah, .dal, .thal, .reh, .zain, .seen, .sheen,
    .sad, .dad, .tah, .zah, .ain, .ghain, .feh, .qaf, .kaf, .lam, .meem, .noon,
    .heh, .waw, .alefMaksura, .yeh, .fatha, .damma, .kasra, .sukun,
    .shadda] : List ACh)

instance (c : ACh) : Decidable (lookupAgreeChar c) :=
  inferInstanceAs (Decidable (c ∈ _))

/-- The composed spec normalization with the trim removed; equal to
`lookupSpecNorm` on space-free inputs and append-distributive. -/
def lookupSpecNormCore (k : List ACh) : List ACh :=
  chrep .alefMaksura .yeh (chrep .tehMarbuta .heh
    (translateRemap (strip_diacritics k)))

/-- Model of `v.replace("ّ", "")`: drop every shadda. -/
def shaddaFree (w : List ACh) : List ACh := removeAll .shadda w

/-- Model of the `_with_shadda_free` helper: a variant set together with a
shadda-stripped copy of every member. -/
def withShaddaFree (v : Finset (List ACh)) : Finset (List ACh) :=
  v ∪ v.image shaddaFree

/-- Insertion of a token into the inner, insertion-ordered per-word dict
`verse_map[key][word_index].append(tok)`. -/
def wordInsert (words : List (Nat × List Token)) (w : Nat) (t : Token) :
    List (Nat × List Token) :=
  if words.any (fun p => decide (p.1 = w)) then
    words.map (fun p => if p.1 = w then (p.1, p.2 ++ [t]) else p)
  else words ++ [(w, [t])]

/-- Insertion of a token into the outer, insertion-ordered per-verse dict of
`RootAyahExtraction._load_morphology`. -/
def verseInsert (cache : List ((Nat × Nat) × List (Nat × List Token))) (t : Token) :
    List ((Nat × Nat) × List (Nat × List Token)) :=
  if cache.any (fun e => decide (e.1 = (t.surah, t.ayah))) then
    cache.map (fun e =>
      if e.1 = (t.surah, t.ayah) then (e.1, wordInsert e.2 t.word_index t) else e)
  else cache ++ [((t.surah, t.ayah), wordInsert [] t.word_index t)]

/-- Model of `RootAyahExtraction._load_morphology`: verse cache keyed by
(surah, ayah), each verse holding its word groups keyed by word_index, both
levels in insertion (file) order. -/
def loadMorphology (toks : List Token) : List ((Nat × Nat) × List (Nat × List Token)) :=
  toks.foldl verseInsert []

/-- Lemma loop of `RootAyahExtraction._word_matches`: some token carries a
truthy lemma equal to the query after normalization, exactly or ignoring
shadda. -/
def lemLoopMatch (q_norm : List ACh) (tokens : List Token) : Bool :=
  tokens.any (fun tok => decide (tok.lem ≠ [] ∧
    (normalize tok.lem = q_norm ∨ shaddaFree (normalize tok.lem) = shaddaFree q_norm)))

/-- Root-initial extraction of `_word_matches`: first token that actually
carries a root, else the empty string (falsy, hence `none` here). -/
def rootInitialE (tokens : List Token) : Option ACh :=
  match tokens.find? (fun t => decide (t.root ≠ [])) with
  | some t => t.root.head?
  | none => none

/-- Root loop of `_word_matches`: some token carries a truthy root equal to
the query after normalization, exactly or ignoring shadda. -/
def rootLoopMatch (q_norm : List ACh) (tokens : List Token) : Bool :=
  tokens.any (fun tok => decide (tok.root ≠ [] ∧
    (normalize tok.root = q_norm ∨ shaddaFree (normalize tok.root) = shaddaFree q_norm)))

/-- Model of `RootAyahExtraction._word_matches`: lemma equality (shadda
insensitive), then shadda-robust surface-variant intersection, then root
equality (shadda insensitive); the source returns at the first stage that
succeeds, which equals this disjunction. -/
def _word_matches (q_norm : List ACh) (tokens : List Token) : Bool :=
  lemLoopMatch q_norm tokens
  || decide ((withShaddaFree (_variants q_norm none) ∩
       withShaddaFree (_variants (normalize (_concat tokens))
         (rootInitialE tokens))).Nonempty)
  || rootLoopMatch q_norm tokens

/-- Lexicographic order on (surah, ayah) pairs — Python tuple comparison. -/
def lexLE (p q : Nat × Nat) : Prop := p.1 < q.1 ∨ (p.1 = q.1 ∧ p.2 ≤ q.2)

instance : DecidableRel lexLE :=
  fun p q => inferInstanceAs (Decidable (p.1 < q.1 ∨ (p.1 = q.1 ∧ p.2 ≤ q.2)))

instance : IsTotal (Nat × Nat) lexLE :=
  ⟨by intro a b; unfold lexLE; omega⟩

instance : IsTrans (Nat × Nat) lexLE :=
  ⟨by intro a b c hab hbc; unfold lexLE at *; omega⟩

/-- Model of Python `sorted` on a list of distinct (surah, ayah) pairs. -/
def sortPairs (l : List (Nat × Nat)) : List (Nat × Nat) :=
  List.insertionSort lexLE l

/-- Surah-filter guard of `RootAyahExtraction.extract`:
`surah_filter is not None and s != surah_filter` skips the verse. -/
def surahOk (sf : Option Nat) (s : Nat) : Bool :=
  match sf with
  | none => true
  | some v => decide (s = v)

/-- Model of `matched.add((s, a))` on the list representation of the set. -/
def addPair (acc : List (Nat × Nat)) (p : Nat × Nat) : List (Nat × Nat) :=
  if p ∈ acc then acc else acc ++ [p]

/-- The verse scan of `extract`: record (surah, ayah) for every cached verse
that passes the surah filter and has some word group matching; the per-verse
`break` after the first matching word equals this `any`. -/
def matchedVerses (q_norm : List ACh) (sf : Option Nat)
    (cache : List ((Nat × Nat) × List (Nat × List Token))) : List (Nat × Nat) :=
  cache.foldl (fun acc e =>
    if surahOk sf e.1.1 && e.2.any (fun g => _word_matches q_norm g.2)
    then addPair acc e.1 else acc) []

/-- Ascending word_index order used by `_build_verse_text`. -/
def wordIdxLE (a b : Nat × List Token) : Prop := a.1 ≤ b.1

instance : DecidableRel wordIdxLE :=
  fun a b => inferInstanceAs (Decidable (a.1 ≤ b.1))

/-- Model of `" ".join(words)`. -/
def joinSpace : List (List ACh) → List ACh
  | [] => []
  | [w] => w
  | w :: r :: rs => w ++ ACh.space :: joinSpace (r :: rs)

/-- Model of `RootAyahExtraction._build_verse_text`: concatenate each word
group (by `_concat`) in ascending word_index order, separated by single
spaces. -/
def _build_verse_text (words : List (Nat × List Token)) : List ACh :=
  joinSpace ((List.insertionSort wordIdxLE words).map (fun p => _concat p.2))

/-- Dict lookup `self._VERSE_CACHE[(s, a)]` on the association-list cache. -/
def cacheLookup (cache : List ((Nat × Nat) × List (Nat × List Token)))
    (p : Nat × Nat) : List (Nat × List Token) :=
  match cache.find? (fun e => decide (e.1 = p)) with
  | some e => e.2
  | none => []

/-- Model of `RootAyahExtraction.extract` from the point where the query word
has been resolved (the upstream `extract_word` of the source delegates to an
external language model and regex heuristics, out of scope per the spec):
normalize the query, scan every cached verse, collect matches as a set, sort
by (surah, ayah) and attach the rebuilt verse text. -/
def extract (query_word : List ACh) (surah_filter : Option Nat)
    (corpus : List Token) : List (Nat × Nat × List ACh) :=
  (sortPairs (matchedVerses (normalize query_word) surah_filter
      (loadMorphology corpus))).map
    (fun p => (p.1, p.2, _build_verse_text (cacheLookup (loadMorphology corpus) p)))

/-- Payload of a successful `topic_expansion` call.  Carries the ranked root
list the post-processing reads; the accompanying rows / rows_text fields of
the source payload never influence control flow or any claim and are not
modelled. -/
structure TopicData where
  root_list : List (List ACh)
deriving DecidableEq

/-- The read-only world a dispatch runs against: the two corpus files plus
the two collaborators the spec declares external (the embedding-based topic
expansion and the LLM/regex word extraction), abstracted as functions where
`none` is a falsy/failed result. -/
structure DispatchEnv where
  corpus : List Token
  glossary : List GEntry
  topicFn : List ACh → Option TopicData
  extractWordFn : List ACh → Option (List ACh)

/-- Model of `root_match` (dispatcher.py): derive the root of the argument via
`smart_exact_match` when it finds tokens, else treat the argument as a bare
root; then collect every corpus token with that root, where roots starting
with أ إ آ are also compared against the normalized root.  Empty result is a
failure (`None`). -/
def root_match (corpus : List Token) (root_or_word : List ACh) : Option (List Token) :=
  let root :=
    match (smart_exact_match root_or_word corpus).1 with
    | some (t0 :: _) => t0.root
    | _ => root_or_word
  let ms :=
    match root with
    | c :: _ =>
      if isHamzaStart c then
        corpus.filter (fun t => decide (t.root = root ∨ t.root = normalize root))
      else corpus.filter (fun t => decide (t.root = root))
    | [] => corpus.filter (fun t => decide (t.root = ([] : List ACh)))
  if ms ≠ [] then some ms else none

/-- Model of `lemma_match` (dispatcher.py): primary `smart_exact_match`, with
a `root_match` fallback when that finds nothing. -/
def lemma_match (corpus : List Token) (word : List ACh) : Option (List Token) :=
  match (smart_exact_match word corpus).1 with
  | some (t0 :: ts) => some (t0 :: ts)
  | _ => root_match corpus word

/-- Group rule of `lemma_match_surah_filter`: lemma equality, or the
shadda-robust surface-variant intersection (same asymmetric root protection
as the matcher). -/
def lmsfGroupMatch (q_norm : List ACh) (toks : List Token) : Bool :=
  wordLemmaMatch q_norm toks ||
    decide ((withShaddaFree (_variants q_norm none) ∩
      withShaddaFree (_variants (normalize (_concat toks)) (rootInitial toks))).Nonempty)

/-- Model of `lemma_match_surah_filter` (dispatcher.py): group the (surah
filtered) corpus, collect all tokens of every group matching by lemma or by
shadda-robust surface variants; when none matches, fall back to `root_match`
filtered to the surah.  Empty results are failures (`None`). -/
def lemma_match_surah_filter (corpus : List Token) (word : List ACh)
    (surah : Option Nat) : Option (List Token) :=
  let q_norm := normalize word
  let grouped := (corpus.filter (fun t => surahOk surah t.surah)).foldl groupInsert []
  let ms := grouped.foldl (fun acc g =>
    if lmsfGroupMatch q_norm g.2 then acc ++ g.2 else acc) []
  if ms ≠ [] then some ms
  else
    match root_match corpus word with
    | some root_tokens =>
      match surah with
      | some v =>
        let ft := root_tokens.filter (fun t => decide (t.surah = v))
        if ft ≠ [] then some ft else none
      | none => some root_tokens
    | none => none

/-- Harakat stripping used by the root-argument derivation of the dispatcher:
remove fatha, damma, kasra and sukun. -/
def stripShortVowels (w : List ACh) : List ACh :=
  removeAll .sukun (removeAll .kasra (removeAll .damma (removeAll .fatha w)))

/-- Model of the root-argument derivation in the `root_lookup_combined`
branch of `dispatch_retrieval`: prefer a cached token at the hardcoded
location (37, 140, 2); else a token whose harakat-stripped token or lemma
equals the harakat-stripped target; take its root when truthy; else the first
cached token carrying a root; else the original target. -/
def deriveRootArg (target : List ACh) (cache : Option (List Token)) : List ACh :=
  match cache with
  | some (t0 :: ts) =>
    let morph := t0 :: ts
    let target_normalized := stripShortVowels target
    let target_token : Option Token :=
      match morph.find? (fun t =>
          decide (t.surah = 37 ∧ t.ayah = 140 ∧ t.word_index = 2)) with
      | some t => some t
      | none => morph.find? (fun t =>
          decide (stripShortVowels t.token = target_normalized
            ∨ stripShortVowels t.lem = target_normalized))
    let root1 : Option (List ACh) :=
      match target_token with
      | some t => if t.root ≠ [] then some t.root else none
      | none => none
    let root2 : Option (List ACh) :=
      match root1 with
      | some r => some r
      | none => (morph.find? (fun t => decide (t.root ≠ []))).map (fun t => t.root)
    match root2 with
    | some r => r
    | none => target
  | _ => target

/-- The glossary data the `root_lookup_combined` branch ends up with: primary
lookup with the derived root, one retry with the original target when the
primary misses and the target differs from the derived root. -/
def rootLookupData (glossary : List GEntry) (target : List ACh)
    (cache : Option (List Token)) : Option GEntry :=
  let root_arg := deriveRootArg target cache
  let d0 := root_lookup_combined root_arg glossary
  if d0 = none ∧ target ≠ root_arg then root_lookup_combined target glossary else d0

/-- Insertion-ordered grouping of tokens by (surah, ayah) used by
`_ayahs_by_root_exact`. -/
def verseMapSA (corpus : List Token) : List ((Nat × Nat) × List Token) :=
  corpus.foldl (fun acc t =>
    if acc.any (fun e => decide (e.1 = (t.surah, t.ayah))) then
      acc.map (fun e => if e.1 = (t.surah, t.ayah) then (e.1, e.2 ++ [t]) else e)
    else acc ++ [((t.surah, t.ayah), [t])]) []

/-- Insertion-ordered grouping by word_index (the `grouped` dict of
`_ayahs_by_root_exact`). -/
def groupByWord (toks : List Token) : List (Nat × List Token) :=
  toks.foldl (fun acc t => wordInsert acc t.word_index t) []

/-- Model of `_ayahs_by_root_exact` (dispatcher.py): the first `max_n` verses
containing a token whose normalized root equals the normalized argument, each
with its reconstructed text (the Arabic sentence framing of the source output
is not modelled, only the (surah, ayah, text) content). -/
def _ayahs_by_root_exact (corpus : List Token) (root : List ACh) (max_n : Nat) :
    List (Nat × Nat × List ACh) :=
  let root_norm := normalize root
  ((verseMapSA corpus).filter (fun e =>
      e.2.any (fun tok => decide (tok.root ≠ [] ∧ normalize tok.root = root_norm)))).take max_n
    |>.map (fun e => (e.1.1, e.1.2, _build_verse_text (groupByWord e.2)))

/-- Resolution of the query word inside `ayah_extraction`: the external
`extract_word` first, then the 1-or-2-word fallback of
`RootAyahExtraction.extract`; `none` is the ValueError path the dispatcher
wrapper catches. -/
def resolveQueryWord (env : DispatchEnv) (question : List ACh) : Option (List ACh) :=
  match env.extractWordFn question with
  | some w => some w
  | none =>
    if 1 ≤ ((question.splitOn ACh.space).filter (fun w => decide (w ≠ []))).length
        ∧ ((question.splitOn ACh.space).filter (fun w => decide (w ≠ []))).length ≤ 2
    then some (pyStrip question)
    else none

/-- Results a retrieval method can hand to the dispatch loop, mirroring the
Python payload types (token lists, formatted verse lists, the topic payload,
and the stub strings). -/
inductive RetResult where
  | toks (l : List Token)
  | ayahs (l : List (Nat × Nat × List ACh))
  | topic (d : TopicData)
  | txt (s : String)
deriving DecidableEq

/-- Model of the `ayah_extraction` wrapper (dispatcher.py): run the extractor
with the injected surah filter; an unresolvable query or an empty verse list
is a failure. -/
def ayahMethod (env : DispatchEnv) (target : List ACh) (surah : Option Nat) :
    Option RetResult :=
  match resolveQueryWord env target with
  | none => none
  | some qw =>
    match extract qw surah env.corpus with
    | [] => none
    | t :: ts => some (.ayahs (t :: ts))

/-- The retrieval methods named in `CALLABLES` (dispatcher.py). -/
inductive Method where
  | lemma_match
  | lemma_match_surah_filter
  | root_match
  | root_lookup_combined
  | pattern_lookup
  | etymology_lookup
  | semantic_filter
  | topic_expansion
  | domain_classification
  | ayah_extraction
deriving DecidableEq

/-- The post-processing step names of the dispatch table. -/
inductive Post where
  | count
  | extract_root
  | attach_sample_ayahs
deriving DecidableEq

/-- One step of a dispatch sequence: a retrieval method with an optional
on_fail message, or a post-processing step (which carries none). -/
inductive StepT where
  | method (m : Method) (on_fail : Option String)
  | post (p : Post)
deriving DecidableEq

/-- The on_fail message of a step, when any. -/
def stepOnFail : StepT → Option String
  | .method _ f => f
  | .post _ => none

/-- The string name of a method, used for the context keys
`method_name` and `method_name ++ "_note"`. -/
def methodName : Method → String
  | .lemma_match => "lemma_match"
  | .lemma_match_surah_filter => "lemma_match_surah_filter"
  | .root_match => "root_match"
  | .root_lookup_combined => "root_lookup_combined"
  | .pattern_lookup => "pattern_lookup"
  | .etymology_lookup => "etymology_lookup"
  | .semantic_filter => "semantic_filter"
  | .topic_expansion => "topic_expansion"
  | .domain_classification => "domain_classification"
  | .ayah_extraction => "ayah_extraction"

/-- Values stored in the context bundle.  Human-readable diagnostic notes are
pure explanatory text the claims never constrain; they are modelled by the
opaque marker `note`. -/
inductive CtxVal where
  | toks (l : List Token)
  | entry (e : GEntry)
  | topic (d : TopicData)
  | num (n : Nat)
  | refs (l : List (Nat × Nat × Nat))
  | ayahs (l : List (Nat × Nat × List ACh))
  | samples (l : List (List ACh × List (Nat × Nat × List ACh)))
  | str (w : List ACh)
  | msg (s : String)
  | note
deriving DecidableEq

/-- The context bundle: a Python dict in insertion order. -/
def Ctx : Type := List (String × CtxVal)

instance : DecidableEq Ctx := inferInstanceAs (DecidableEq (List (String × CtxVal)))

/-- Dict assignment `ctx[k] = v`: replace in place, else append. -/
def ctxSet : Ctx → String → CtxVal → Ctx
  | [], k, v => [(k, v)]
  | e :: t, k, v => if e.1 = k then (k, v) :: t else e :: ctxSet t k v

/-- Dict lookup `ctx.get(k)`. -/
def ctxGet : Ctx → String → Option CtxVal
  | [], _ => none
  | e :: t, k => if e.1 = k then some e.2 else ctxGet t k

/-- Conversion of a method result to its context payload. -/
def retVal : RetResult → CtxVal
  | .toks l => .toks l
  | .ayahs l => .ayahs l
  | .topic d => .topic d
  | .txt s => .msg s

/-- Python truthiness of a method result (`if data:`). -/
def truthy : Option RetResult → Bool
  | none => false
  | some (.toks l) => decide (l ≠ [])
  | some (.ayahs l) => decide (l ≠ [])
  | some (.topic _) => true
  | some (.txt s) => decide (s ≠ "")

/-- The `morph_cache` update guard
`result and isinstance(result, list) and isinstance(result[0], dict)`:
only a non-empty token list qualifies. -/
def asTokenCache : Option RetResult → Option (List Token)
  | some (.toks (t :: ts)) => some (t :: ts)
  | _ => none

/-- The primary call of the dispatch loop: only the four specially-handled
methods are actually executed there; every other method gets `(None, "")`. -/
def primaryCall (env : DispatchEnv) (target : List ACh) (surah : Option Nat) :
    Method → Option RetResult
  | .ayah_extraction => ayahMethod env target surah
  | .lemma_match_surah_filter =>
    (lemma_match_surah_filter env.corpus target surah).map .toks
  | .lemma_match => (lemma_match env.corpus target).map .toks
  | .topic_expansion => (env.topicFn target).map .topic
  | _ => none

/-- The `data, note = func(target)` call of the normal retrieval branch; the
stub methods return their truthy placeholder strings.  A `lemma_match_surah_filter`
reaching this branch would be called with the surah defaulting to None, and a
`root_lookup_combined` is diverted before it (both unreachable from the loop). -/
def callMethod (env : DispatchEnv) (target : List ACh) (surah : Option Nat) :
    Method → Option RetResult
  | .root_match => (root_match env.corpus target).map .toks
  | .pattern_lookup => some (.txt "(stub) pattern info")
  | .etymology_lookup => some (.txt "(stub) brief etymology")
  | .semantic_filter => some (.txt "(stub) filtered list")
  | .domain_classification => some (.txt "(stub) semantic domain explanation")
  | .topic_expansion => (env.topicFn target).map .topic
  | .ayah_extraction => ayahMethod env target surah
  | .lemma_match => (lemma_match env.corpus target).map .toks
  | .lemma_match_surah_filter =>
    (lemma_match_surah_filter env.corpus target none).map .toks
  | .root_lookup_combined => none

/-- Lexicographic order on the (surah, ayah, word_index) triples. -/
def lex3LE (a b : Nat × Nat × Nat) : Prop :=
  a.1 < b.1 ∨ (a.1 = b.1 ∧ (a.2.1 < b.2.1 ∨ (a.2.1 = b.2.1 ∧ a.2.2 ≤ b.2.2)))

instance : DecidableRel lex3LE :=
  fun a b => inferInstanceAs
    (Decidable (a.1 < b.1 ∨ (a.1 = b.1 ∧ (a.2.1 < b.2.1 ∨ (a.2.1 = b.2.1 ∧ a.2.2 ≤ b.2.2)))))

/-- Model of `set.add` for occurrence triples. -/
def addTriple (acc : List (Nat × Nat × Nat)) (p : Nat × Nat × Nat) :
    List (Nat × Nat × Nat) :=
  if p ∈ acc then acc else acc ++ [p]

/-- The distinct (surah, ayah, word_index) triples of a token list, in first
occurrence order — the `word_keys` set of the count post-step. -/
def tripleSet (l : List Token) : List (Nat × Nat × Nat) :=
  l.foldl (fun acc t => addTriple acc (_group_key t)) []

/-- Model of `sorted(word_keys)`. -/
def sortTriples (l : List (Nat × Nat × Nat)) : List (Nat × Nat × Nat) :=
  List.insertionSort lex3LE l

/-- The post-processing steps of `dispatch_retrieval` (count / extract_root /
attach_sample_ayahs); each only edits the context and never fails. -/
def applyPost (env : DispatchEnv) (target : List ACh) (p : Post) (ctx : Ctx)
    (cache : Option (List Token)) : Ctx :=
  match p with
  | .count =>
    match cache with
    | some (t0 :: ts) =>
      ctxSet (ctxSet (ctxSet ctx
        "occurrence_count" (.num (tripleSet (t0 :: ts)).length))
        "occurrence_refs" (.refs (sortTriples (tripleSet (t0 :: ts)))))
        "occurrence_refs_pretty" (.refs (sortTriples (tripleSet (t0 :: ts))))
    | _ => ctx
  | .extract_root =>
    match cache with
    | some (t0 :: ts) =>
      match ((t0 :: ts).find? (fun tok => decide (tok.root ≠ []))).map
          (fun tok => tok.root) with
      | some r => ctxSet (ctxSet ctx "root_note" .note) "root" (.str r)
      | none =>
        match (smart_exact_match target env.corpus).1 with
        | some (u0 :: _) =>
          if u0.root ≠ [] then
            ctxSet (ctxSet ctx "root_note" .note) "root" (.str u0.root)
          else ctxSet (ctxSet ctx "root_note" .note) "root" (.str target)
        | _ => ctxSet (ctxSet ctx "root_note" .note) "root" (.str target)
    | _ => ctx
  | .attach_sample_ayahs =>
    let roots :=
      match ctxGet ctx "topic_expansion" with
      | some (.topic d) => d.root_list
      | _ => []
    let samples := roots.foldl (fun acc r =>
      match _ayahs_by_root_exact env.corpus r 3 with
      | [] => acc
      | v :: vs => acc ++ [(r, v :: vs)]) []
    match samples with
    | [] => ctx
    | s :: ss => ctxSet ctx "root_samples" (.samples (s :: ss))

/-- Outcome of one step of the loop: continue with updated state, or return
the context immediately (the early `return ctx` of the source). -/
inductive StepOutcome where
  | cont (ctx : Ctx) (cache : Option (List Token))
  | halt (ctx : Ctx)
deriving DecidableEq

/-- The shared failure tail of a retrieval step: an on_fail message sets
`error_message` and halts the whole sequence; without one the failure is
silently skipped. -/
def failOrCont (ctx : Ctx) (cache : Option (List Token)) (onFail : Option String) :
    StepOutcome :=
  match onFail with
  | some m => .halt (ctxSet ctx "error_message" (.msg m))
  | none => .cont ctx cache

/-- One iteration of the dispatch loop over a step, translated branch by
branch from `dispatch_retrieval`:
post-processing steps always continue; the `root_lookup_combined` branch
derives its root argument from the cache, looks up (with the single retry)
and stores the entry or fails; the two lemma methods store nothing and fail
exactly when the token cache is still empty; every other method stores its
note and, when truthy, its payload (with the topic overwrite of the source),
failing otherwise. -/
def runStep (env : DispatchEnv) (target : List ACh) (surah : Option Nat)
    (ctx : Ctx) (cache : Option (List Token)) : StepT → StepOutcome
  | .post p => .cont (applyPost env target p ctx cache) cache
  | .method m onFail =>
    let result := primaryCall env target surah m
    let cache1 :=
      match asTokenCache result with
      | some l => some l
      | none => cache
    match m with
    | .root_lookup_combined =>
      let ctx1 := ctxSet ctx "root_lookup_combined_note" .note
      match rootLookupData env.glossary target cache1 with
      | some e => .cont (ctxSet ctx1 "root_lookup_combined" (.entry e)) cache1
      | none => failOrCont ctx1 cache1 onFail
    | .lemma_match =>
      match cache1 with
      | none => failOrCont ctx cache1 onFail
      | some _ => .cont ctx cache1
    | .lemma_match_surah_filter =>
      match cache1 with
      | none => failOrCont ctx cache1 onFail
      | some _ => .cont ctx cache1
    | m =>
      let data := callMethod env target surah m
      let ctx1 := ctxSet ctx (methodName m ++ "_note") .note
      if truthy data then
        let ctx2 :=
          match data with
          | some r => ctxSet ctx1 (methodName m) (retVal r)
          | none => ctx1
        if m = .topic_expansion then
          match result with
          | some r =>
            .cont (ctxSet (ctxSet ctx2 (methodName m) (retVal r))
              (methodName m ++ "_note") .note) cache1
          | none => .cont ctx2 cache1
        else .cont ctx2 cache1
      else failOrCont ctx1 cache1 onFail

/-- The step loop of `dispatch_retrieval`. -/
def runSteps (env : DispatchEnv) (target : List ACh) (surah : Option Nat) :
    List StepT → Ctx → Option (List Token) → Ctx
  | [], ctx, _ => ctx
  | st :: rest, ctx, cache =>
    match runStep env target surah ctx cache st with
    | .halt c => c
    | .cont c k => runSteps env target surah rest c k

/-- Model of `DISPATCH_TABLE` (dispatcher.py), slug by slug. -/
def DISPATCH_TABLE : String → Option (List StepT)
  | "meaning_word" => some
    [.method .lemma_match (some "The word you provided does not exist in the Quranic database."),
     .method .root_lookup_combined none]
  | "semantic_context_word" => some
    [.method .lemma_match (some "The word or lemma could not be found in the Quranic corpus."),
     .method .root_lookup_combined none]
  | "multiple_contexts_word" => some
    [.method .root_match (some "The root could not be located in the Quranic corpus."),
     .method .root_lookup_combined none]
  | "difference_two_words" => some
    [.method .lemma_match (some "One or both of the words are not found in the Quran."),
     .method .root_lookup_combined none]
  | "frequency_word_root" => some
    [.method .lemma_match_surah_filter (some "The word was not found in the specified surah."),
     .post .count]
  | "thematic_classification_roots" => some
    [.method .lemma_match (some "The word is not present in the Quranic corpus."),
     .method .root_lookup_combined none]
  | "semantic_domain_root" => some
    [.method .root_match (some "The root could not be found in the Quranic text."),
     .method .root_lookup_combined none,
     .method .domain_classification none]
  | "root_extraction" => some
    [.method .lemma_match (some "The word you provided does not exist in the Quranic database."),
     .post .extract_root]
  | "root_ayah_extraction" => some
    [.method .ayah_extraction (some "لم أجد آيات تحتوي على الكلمة أو الجذر المطلوب.")]
  | "roots_by_topic" => some
    [.method .topic_expansion (some "لم أجد جذورًا مرتبطة بهذا الموضوع."),
     .post .attach_sample_ayahs]
  | "forms_of_root" => some
    [.method .lemma_match (some "لم أتمكن من العثور على الجذر أو الكلمة المطلوبة في قاعدة البيانات."),
     .method .root_lookup_combined none]
  | _ => none

/-- Model of `dispatch_retrieval` (dispatcher.py): look the question type up
in the table (an unknown slug yields a bundle holding only the error message)
and run its steps over an empty context and empty cache. -/
def dispatch_retrieval (env : DispatchEnv) (question_type : String)
    (target : List ACh) (surah : Option Nat) : Ctx :=
  match DISPATCH_TABLE question_type with
  | none => [("error_message", .msg ("Unknown question_type slug: " ++ question_type))]
  | some steps => runSteps env target surah steps [] none

/-- Modelled from the claim words of C5 (the value the claim asserts for
occurrence_count): the number of distinct (surah, ayah, word_index) triples
whose verse-word matches the target by lemma equality, surface-variant
intersection, or root equality — the three matcher rules. -/
def claimedFrequency (corpus : List Token) (target : List ACh) : Nat :=
  ((((groupTokens corpus).filter (fun g => wordMatches (normalize target) g.2)).map
    (fun g => g.1)).dedup).length

theorem stripUnit_stable : ∀ c : ACh, ∀ d ∈ stripUnit c,
    stripStable d ∧ isHamzaStart d = false := by decide

theorem remapChar_of_stable : ∀ c : ACh, stripStable c → ∀ d ∈ remapChar c, inert d := by
  decide

theorem strip_mem_stable (s : List ACh) : ∀ c ∈ strip_diacritics s,
    stripStable c ∧ isHamzaStart c = false := by
  intro c hc
  rw [strip_diacritics, List.mem_flatMap] at hc
  obtain ⟨b, _, hb⟩ := hc
  exact stripUnit_stable b c hb

theorem remap_strip_mem_inert (s : List ACh) :
    ∀ c ∈ translateRemap (strip_diacritics s), inert c := by
  intro c hc
  rw [translateRemap, List.mem_flatMap] at hc
  obtain ⟨b, hbs, hb⟩ := hc
  exact remapChar_of_stable b (strip_mem_stable s b hbs).1 c hb

theorem strip_eq_self (s : List ACh) (h : ∀ c ∈ s, inert c) :
    strip_diacritics s = s := by
  induction s with
  | nil => rfl
  | cons c t ih =>
    have hc : stripUnit c = [c] := (h c (List.mem_cons_self c t)).1
    have ht := ih (fun d hd => h d (List.mem_cons_of_mem c hd))
    simp only [strip_diacritics, List.flatMap_cons] at *
    rw [hc, ht]
    rfl

theorem remap_eq_self (s : List ACh) (h : ∀ c ∈ s, inert c) :
    translateRemap s = s := by
  induction s with
  | nil => rfl
  | cons c t ih =>
    have hc : remapChar c = [c] := (h c (List.mem_cons_self c t)).2.1
    have ht := ih (fun d hd => h d (List.mem_cons_of_mem c hd))
    simp only [translateRemap, List.flatMap_cons] at *
    rw [hc, ht]
    rfl

theorem rstrip_cons (a : ACh) (t : List ACh) :
    rstrip (a :: t) =
      if rstrip t = [] then (if a = ACh.space then [] else [a])
      else a :: rstrip t := by
  rw [rstrip]
  cases h : rstrip t with
  | nil => simp
  | cons r rs => simp

theorem rstrip_subset : ∀ s : List ACh, ∀ c ∈ rstrip s, c ∈ s := by
  intro s
  induction s with
  | nil => intro c hc; simp [rstrip] at hc
  | cons a t ih =>
    intro c hc
    rw [rstrip_cons] at hc
    by_cases h : rstrip t = []
    · rw [if_pos h] at hc
      by_cases ha : a = ACh.space
      · simp [ha] at hc
      · rw [if_neg ha] at hc
        simp at hc
        simp [hc]
    · rw [if_neg h] at hc
      rcases List.mem_cons.mp hc with h1 | h2
      · simp [h1]
      · exact List.mem_cons_of_mem _ (ih c h2)

theorem rstrip_idem : ∀ s : List ACh, rstrip (rstrip s) = rstrip s := by
  intro s
  induction s with
  | nil => rfl
  | cons a t ih =>
    rw [rstrip_cons]
    by_cases h : rstrip t = []
    · rw [if_pos h]
      by_cases ha : a = ACh.space
      · simp [ha, rstrip]
      · rw [if_neg ha, rstrip_cons]
        simp [rstrip, ha]
    · rw [if_neg h, rstrip_cons, ih, if_neg h]

theorem rstrip_head : ∀ s : List ACh, rstrip s = [] ∨ (rstrip s).head? = s.head? := by
  intro s
  cases s with
  | nil => left; rfl
  | cons a t =>
    rw [rstrip_cons]
    by_cases h : rstrip t = []
    · rw [if_pos h]
      by_cases ha : a = ACh.space
      · left; simp [ha]
      · right; simp [ha]
    · right; rw [if_neg h]; rfl

theorem lstrip_head : ∀ s : List ACh, ∀ c, (lstrip s).head? = some c → c ≠ ACh.space := by
  intro s
  induction s with
  | nil => intro c hc; simp [lstrip] at hc
  | cons a t ih =>
    intro c hc
    by_cases ha : a = ACh.space
    · rw [lstrip, List.dropWhile_cons, if_pos (by simp [ha])] at hc
      exact ih c hc
    · rw [lstrip, List.dropWhile_cons, if_neg (by simp [ha])] at hc
      simp at hc
      subst hc
      exact ha

theorem lstrip_eq_self (s : List ACh) (h : ∀ c, s.head? = some c → c ≠ ACh.space) :
    lstrip s = s := by
  cases s with
  | nil => rfl
  | cons a t =>
    have := h a rfl
    rw [lstrip, List.dropWhile_cons, if_neg (by simp [this])]

theorem pyStrip_subset (s : List ACh) : ∀ c ∈ pyStrip s, c ∈ s := by
  intro c hc
  have h1 : c ∈ lstrip s := rstrip_subset _ c hc
  exact (List.dropWhile_sublist _).mem h1

theorem pyStrip_idem (s : List ACh) : pyStrip (pyStrip s) = pyStrip s := by
  unfold pyStrip
  have h1 : lstrip (rstrip (lstrip s)) = rstrip (lstrip s) := by
    rcases rstrip_head (lstrip s) with h | h
    · rw [h]; rfl
    · apply lstrip_eq_self
      intro c hc
      rw [h] at hc
      exact lstrip_head s c hc
  rw [h1, rstrip_idem]

theorem normalize_eq (s : List ACh) :
    normalize s = pyStrip (translateRemap (strip_diacritics s)) := by
  unfold normalize
  cases h : strip_diacritics s with
  | nil => rfl
  | cons c rest =>
    have hc := strip_mem_stable s c (by rw [h]; exact List.mem_cons_self c rest)
    show pyStrip
        (if isHamzaStart c = true then c :: translateRemap rest
         else translateRemap (c :: rest)) = _
    rw [if_neg (by simp [hc.2])]

theorem normalize_mem_inert (s : List ACh) : ∀ c ∈ normalize s, inert c := by
  intro c hc
  rw [normalize_eq] at hc
  exact remap_strip_mem_inert s c (pyStrip_subset _ c hc)

theorem pyStrip_normalize (s : List ACh) : pyStrip (normalize s) = normalize s := by
  rw [normalize_eq]
  exact pyStrip_idem _

/-- C3: normalize is idempotent — for every input string s,
normalize (normalize s) = normalize s. -/
theorem C3_normalize_idempotent : ∀ s : List ACh, normalize (normalize s) = normalize s := by
  intro s
  have hin : ∀ c ∈ normalize s, inert c := normalize_mem_inert s
  rw [normalize_eq (normalize s), strip_eq_self _ hin, remap_eq_self _ hin,
    pyStrip_normalize]

/-- C4: evaluation of the code at the failing input أبانا.  Because
`strip_diacritics` performs the NFD decomposition first (أ U+0623 decomposes
canonically into ا U+0627 followed by the combining hamza U+0654, which the
loop then drops), the leading hamzat-al-qat is gone before the
hamza-preservation branch of `normalize` runs, so
normalize(أبانا) = ابانا = normalize(ابانا), contradicting the claimed
exception that a leading أ is preserved and that the two calls differ. -/
theorem C4_leading_hamza_lost :
    normalize [ACh.alefHamzaA, ACh.beh, ACh.alef, ACh.noon, ACh.alef]
        = [ACh.alef, ACh.beh, ACh.alef, ACh.noon, ACh.alef]
      ∧ normalize [ACh.alef, ACh.beh, ACh.alef, ACh.noon, ACh.alef]
        = [ACh.alef, ACh.beh, ACh.alef, ACh.noon, ACh.alef]
      ∧ normalize [ACh.alefHamzaA, ACh.beh, ACh.alef, ACh.noon, ACh.alef]
        = normalize [ACh.alef, ACh.beh, ACh.alef, ACh.noon, ACh.alef] := by
  decide

theorem stage1_sublist : ∀ (word : List ACh) (r : Option ACh),
    ∀ w ∈ variantStage1 word r, w.Sublist word := by
  intro word r w hw
  cases word with
  | nil =>
    simp only [variantStage1, Finset.mem_singleton] at hw
    subst hw; exact List.Sublist.refl _
  | cons c0 t =>
    cases t with
    | nil =>
      simp only [variantStage1, Finset.mem_singleton] at hw
      subst hw; exact List.Sublist.refl _
    | cons c1 rest =>
      rw [variantStage1] at hw
      have htail : (c1 :: rest).Sublist (c0 :: c1 :: rest) :=
        List.sublist_cons_self c0 (c1 :: rest)
      split_ifs at hw
      all_goals simp only [Finset.mem_insert, Finset.mem_singleton] at hw
      all_goals
        first
        | (subst hw; exact List.Sublist.refl _)
        | (obtain rfl | rfl := hw
           exacts [List.Sublist.refl _, htail])

theorem stage2_sublist : ∀ (word : List ACh) (r : Option ACh),
    ∀ w ∈ variantStage2 word r, w.Sublist word := by
  intro word r w hw
  rw [variantStage2, Finset.mem_union] at hw
  rcases hw with h | h
  · exact stage1_sublist word r w h
  · rw [Finset.mem_biUnion] at h
    obtain ⟨v, hv, hwv⟩ := h
    have hvs := stage1_sublist word r v hv
    by_cases hc : v.take 2 = [ACh.alef, ACh.lam] ∧ 3 < v.length
    · rw [if_pos hc, Finset.mem_singleton] at hwv
      subst hwv
      exact (List.drop_sublist 2 v).trans hvs
    · rw [if_neg hc] at hwv
      simp at hwv

theorem variants_sublist : ∀ (word : List ACh) (r : Option ACh),
    ∀ w ∈ _variants word r, w.Sublist word := by
  intro word r w hw
  rw [_variants, Finset.mem_union] at hw
  rcases hw with h | h
  · exact stage2_sublist word r w h
  · rw [Finset.mem_biUnion] at h
    obtain ⟨v, hv, hwv⟩ := h
    have hvs := stage2_sublist word r v hv
    simp only [Finset.mem_union] at hwv
    rcases hwv with ((h1 | h1) | h1) | h1
    all_goals split_ifs at h1 with hc
    all_goals first
      | exact absurd h1 (Finset.not_mem_empty w)
      | (rw [Finset.mem_singleton] at h1
         subst h1
         first
         | exact (List.filter_sublist v).trans hvs
         | exact (List.dropLast_sublist v).trans hvs)

theorem inert_combining : ∀ c : ACh, inert c → combining c = true → c = ACh.shadda := by
  decide

/-- C10: the output of normalize contains no combining mark other than the
shadda — in particular no tanwin — and therefore, in the matcher pipeline
where both sides are normalized before variant expansion, every generated
variant is tanwin-free and the tanwin-removal rule of `_variants` maps each
form to itself. -/
theorem C10_tanween_free : ∀ s : List ACh,
    (∀ c ∈ normalize s, combining c = true → c = ACh.shadda)
    ∧ ∀ (r : Option ACh), ∀ w ∈ _variants (normalize s) r,
        ACh.fathatan ∉ w ∧ ACh.kasratan ∉ w ∧ ACh.dammatan ∉ w
        ∧ removeAll ACh.fathatan w = w ∧ removeAll ACh.kasratan w = w
        ∧ removeAll ACh.dammatan w = w := by
  intro s
  constructor
  · intro c hc hcomb
    exact inert_combining c (normalize_mem_inert s c hc) hcomb
  · intro r w hw
    have hsub := variants_sublist (normalize s) r w hw
    have hnot : ∀ m : ACh, ¬ inert m → m ∉ w := fun m hm hmem =>
      hm (normalize_mem_inert s m (hsub.mem hmem))
    have h1 : ACh.fathatan ∉ w := hnot _ (by decide)
    have h2 : ACh.kasratan ∉ w := hnot _ (by decide)
    have h3 : ACh.dammatan ∉ w := hnot _ (by decide)
    refine ⟨h1, h2, h3, ?_, ?_, ?_⟩
    all_goals
      rw [removeAll, List.filter_eq_self]
      intro a ha
      simp only [decide_eq_true_eq]
      rintro rfl
      first | exact h1 ha | exact h2 ha | exact h3 ha

/-- Witness for C10 at the concrete input بً: its normalization is ب, whose
only variant is ب itself, and the tanwin conclusions hold there. -/
theorem C10_tanween_free_witness :
    ACh.fathatan ∉ ([ACh.beh] : List ACh) ∧ ACh.kasratan ∉ ([ACh.beh] : List ACh)
    ∧ ACh.dammatan ∉ ([ACh.beh] : List ACh)
    ∧ removeAll ACh.fathatan [ACh.beh] = [ACh.beh]
    ∧ removeAll ACh.kasratan [ACh.beh] = [ACh.beh]
    ∧ removeAll ACh.dammatan [ACh.beh] = [ACh.beh] :=
  (C10_tanween_free [ACh.beh, ACh.fathatan]).2 none [ACh.beh] (by decide)

theorem smartGo_cons_lem (q_norm : List ACh) (k : Nat × Nat × Nat) (toks : List Token)
    (rest : List ((Nat × Nat × Nat) × List Token))
    (h1 : wordLemmaMatch q_norm toks = true) :
    smartGo q_norm ((k, toks) :: rest) = (some toks, .exactLemma k.1 k.2.1 k.2.2) := by
  rw [smartGo]
  simp [h1]

theorem smartGo_cons_surface (q_norm : List ACh) (k : Nat × Nat × Nat) (toks : List Token)
    (rest : List ((Nat × Nat × Nat) × List Token))
    (h1 : wordLemmaMatch q_norm toks = false) (h2 : surfaceStep q_norm toks = true) :
    smartGo q_norm ((k, toks) :: rest) = (some toks, .surfaceVariant k.1 k.2.1 k.2.2) := by
  rw [smartGo]
  simp [h1, h2]

theorem smartGo_cons_root (q_norm : List ACh) (k : Nat × Nat × Nat) (toks : List Token)
    (rest : List ((Nat × Nat × Nat) × List Token))
    (h1 : wordLemmaMatch q_norm toks = false) (h2 : surfaceStep q_norm toks = false)
    (h3 : wordRootMatch q_norm toks = true) :
    smartGo q_norm ((k, toks) :: rest) = (some toks, .exactRoot k.1 k.2.1 k.2.2) := by
  rw [smartGo]
  simp [h1, h2, h3]

theorem smartGo_cons_skip (q_norm : List ACh) (k : Nat × Nat × Nat) (toks : List Token)
    (rest : List ((Nat × Nat × Nat) × List Token))
    (h : wordMatches q_norm toks = false) :
    smartGo q_norm ((k, toks) :: rest) = smartGo q_norm rest := by
  simp only [wordMatches, Bool.or_eq_false_iff] at h
  obtain ⟨⟨h1, h2⟩, h3⟩ := h
  rw [smartGo]
  simp [h1, h2, h3]

theorem smartGo_spec (q_norm : List ACh) (gs : List ((Nat × Nat × Nat) × List Token)) :
    ((smartGo q_norm gs).1 = none → ∀ g ∈ gs, wordMatches q_norm g.2 = false)
    ∧ ∀ r : List Token, (smartGo q_norm gs).1 = some r →
        ∃ i : Nat, ∃ hi : i < gs.length,
          (gs.get ⟨i, hi⟩).2 = r ∧ wordMatches q_norm (gs.get ⟨i, hi⟩).2 = true
          ∧ ∀ j : Nat, ∀ hj : j < gs.length, j < i →
              wordMatches q_norm (gs.get ⟨j, hj⟩).2 = false := by
  induction gs with
  | nil =>
    refine ⟨fun _ g hg => absurd hg (List.not_mem_nil g), fun r hr => ?_⟩
    simp [smartGo] at hr
  | cons p rest ih =>
    obtain ⟨k, toks⟩ := p
    by_cases hm : wordMatches q_norm toks = true
    · have hfst : (smartGo q_norm ((k, toks) :: rest)).1 = some toks := by
        by_cases h1 : wordLemmaMatch q_norm toks = true
        · rw [smartGo_cons_lem q_norm k toks rest h1]
        · have h1' : wordLemmaMatch q_norm toks = false := by
            cases hx : wordLemmaMatch q_norm toks
            · rfl
            · exact absurd hx h1
          by_cases h2 : surfaceStep q_norm toks = true
          · rw [smartGo_cons_surface q_norm k toks rest h1' h2]
          · have h2' : surfaceStep q_norm toks = false := by
              cases hx : surfaceStep q_norm toks
              · rfl
              · exact absurd hx h2
            have h3 : wordRootMatch q_norm toks = true := by
              simp [wordMatches, h1', h2'] at hm
              exact hm
            rw [smartGo_cons_root q_norm k toks rest h1' h2' h3]
      refine ⟨fun hnone => ?_, fun r hr => ?_⟩
      · rw [hfst] at hnone
        cases hnone
      · rw [hfst] at hr
        injection hr with hr
        refine ⟨0, Nat.succ_pos _, hr, hm, ?_⟩
        intro j hj hj0
        omega
    · have hm' : wordMatches q_norm toks = false := by
        cases hx : wordMatches q_norm toks
        · rfl
        · exact absurd hx hm
      rw [smartGo_cons_skip q_norm k toks rest hm']
      refine ⟨fun hnone g hg => ?_, fun r hr => ?_⟩
      · rcases List.mem_cons.mp hg with rfl | hgr
        · exact hm'
        · exact ih.1 hnone g hgr
      · obtain ⟨i, hi, hg1, hg2, hg3⟩ := ih.2 r hr
        refine ⟨i + 1, Nat.succ_lt_succ hi, hg1, hg2, ?_⟩
        intro j hj hji
        cases j with
        | zero => exact hm'
        | succ j' => exact hg3 j' (Nat.lt_of_succ_lt_succ hj) (Nat.lt_of_succ_lt_succ hji)

/-- C2: the matcher scans verse-words in the corpus file order (the insertion
order of `groupTokens`) and returns the first group for which any of the
three rules (lemma, surface variants, root) succeeds; if several distinct
groups would satisfy a rule, the earliest one in file order is returned, and
a `none` result means no group matches at all. -/
theorem C2_first_match_in_file_order : ∀ (q : List ACh) (corpus : List Token),
    ((smart_exact_match q corpus).1 = none →
        ∀ g ∈ groupTokens corpus, wordMatches (normalize q) g.2 = false)
    ∧ ∀ r : List Token, (smart_exact_match q corpus).1 = some r →
        ∃ i : Nat, ∃ hi : i < (groupTokens corpus).length,
          ((groupTokens corpus).get ⟨i, hi⟩).2 = r
          ∧ wordMatches (normalize q) ((groupTokens corpus).get ⟨i, hi⟩).2 = true
          ∧ ∀ j : Nat, ∀ hj : j < (groupTokens corpus).length, j < i →
              wordMatches (normalize q) ((groupTokens corpus).get ⟨j, hj⟩).2 = false :=
  fun q corpus => smartGo_spec (normalize q) (groupTokens corpus)

/-- Witness for C2 on a two-word corpus whose second verse-word (2,2,2) is the
only lemma match for the query عهن: the matcher returns it, it sits at index 1
of the grouping, and the group before it does not match. -/
theorem C2_first_match_in_file_order_witness :
    ∃ i : Nat,
      ∃ hi : i <
        (groupTokens
          [⟨1, 1, 1, 1, [ACh.beh, ACh.alef, ACh.beh], [ACh.beh, ACh.alef, ACh.beh], []⟩,
           ⟨2, 2, 2, 1, [ACh.ain, ACh.heh, ACh.noon], [ACh.ain, ACh.heh, ACh.noon],
             [ACh.ain, ACh.heh, ACh.noon]⟩]).length,
      ((groupTokens
          [⟨1, 1, 1, 1, [ACh.beh, ACh.alef, ACh.beh], [ACh.beh, ACh.alef, ACh.beh], []⟩,
           ⟨2, 2, 2, 1, [ACh.ain, ACh.heh, ACh.noon], [ACh.ain, ACh.heh, ACh.noon],
             [ACh.ain, ACh.heh, ACh.noon]⟩]).get ⟨i, hi⟩).2
          = [⟨2, 2, 2, 1, [ACh.ain, ACh.heh, ACh.noon], [ACh.ain, ACh.heh, ACh.noon],
              [ACh.ain, ACh.heh, ACh.noon]⟩]
        ∧ wordMatches (normalize [ACh.ain, ACh.heh, ACh.noon])
            ((groupTokens
              [⟨1, 1, 1, 1, [ACh.beh, ACh.alef, ACh.beh], [ACh.beh, ACh.alef, ACh.beh], []⟩,
               ⟨2, 2, 2, 1, [ACh.ain, ACh.heh, ACh.noon], [ACh.ain, ACh.heh, ACh.noon],
                 [ACh.ain, ACh.heh, ACh.noon]⟩]).get ⟨i, hi⟩).2 = true
        ∧ ∀ j : Nat,
            ∀ hj : j <
              (groupTokens
                [⟨1, 1, 1, 1, [ACh.beh, ACh.alef, ACh.beh], [ACh.beh, ACh.alef, ACh.beh], []⟩,
                 ⟨2, 2, 2, 1, [ACh.ain, ACh.heh, ACh.noon], [ACh.ain, ACh.heh, ACh.noon],
                   [ACh.ain, ACh.heh, ACh.noon]⟩]).length,
            j < i →
              wordMatches (normalize [ACh.ain, ACh.heh, ACh.noon])
                ((groupTokens
                  [⟨1, 1, 1, 1, [ACh.beh, ACh.alef, ACh.beh], [ACh.beh, ACh.alef, ACh.beh], []⟩,
                   ⟨2, 2, 2, 1, [ACh.ain, ACh.heh, ACh.noon], [ACh.ain, ACh.heh, ACh.noon],
                     [ACh.ain, ACh.heh, ACh.noon]⟩]).get ⟨j, hj⟩).2 = false :=
  (C2_first_match_in_file_order [ACh.ain, ACh.heh, ACh.noon]
      [⟨1, 1, 1, 1, [ACh.beh, ACh.alef, ACh.beh], [ACh.beh, ACh.alef, ACh.beh], []⟩,
       ⟨2, 2, 2, 1, [ACh.ain, ACh.heh, ACh.noon], [ACh.ain, ACh.heh, ACh.noon],
         [ACh.ain, ACh.heh, ACh.noon]⟩]).2
    [⟨2, 2, 2, 1, [ACh.ain, ACh.heh, ACh.noon], [ACh.ain, ACh.heh, ACh.noon],
       [ACh.ain, ACh.heh, ACh.noon]⟩]
    (by decide)

/-- C1 counterexample: for the query كعهن against a verse-word with surface
عهن and root كعهن, the code surface step succeeds (the query variant set is
built WITHOUT root protection, so the proclitic ك is stripped from the query),
while the variant sets the claim prescribes — both built with the
root-initial ك — have empty intersection. -/
theorem C1_counterexample :
    surfaceStep (normalize [ACh.kaf, ACh.ain, ACh.heh, ACh.noon])
        [⟨1, 1, 1, 1, [ACh.ain, ACh.heh, ACh.noon], [],
          [ACh.kaf, ACh.ain, ACh.heh, ACh.noon]⟩] = true
    ∧ (_variants (normalize [ACh.kaf, ACh.ain, ACh.heh, ACh.noon])
          (rootInitial [⟨1, 1, 1, 1, [ACh.ain, ACh.heh, ACh.noon], [],
            [ACh.kaf, ACh.ain, ACh.heh, ACh.noon]⟩])
        ∩ _variants
            (normalize (_concat [⟨1, 1, 1, 1, [ACh.ain, ACh.heh, ACh.noon], [],
              [ACh.kaf, ACh.ain, ACh.heh, ACh.noon]⟩]))
            (rootInitial [⟨1, 1, 1, 1, [ACh.ain, ACh.heh, ACh.noon], [],
              [ACh.kaf, ACh.ain, ACh.heh, ACh.noon]⟩])) = ∅ := by
  decide

/-- C1 amended: in the surface-variant step only the surface side is built
with the root-initial protection; the query side is `_variants(query_norm)`
with no root initial.  When the lemma rule fails, the step succeeds (the scan
returns this verse-word with a SurfaceVariant note) exactly on non-empty
intersection of those two asymmetric sets, falling through to the root rule
or to the rest of the scan otherwise. -/
theorem C1_amended_query_side_unprotected :
    ∀ (q_norm : List ACh) (k : Nat × Nat × Nat) (toks : List Token)
      (rest : List ((Nat × Nat × Nat) × List Token)),
      wordLemmaMatch q_norm toks = false →
      ((_variants q_norm none ∩
          _variants (normalize (_concat toks)) (rootInitial toks)).Nonempty →
        smartGo q_norm ((k, toks) :: rest) = (some toks, .surfaceVariant k.1 k.2.1 k.2.2))
      ∧ (¬ (_variants q_norm none ∩
          _variants (normalize (_concat toks)) (rootInitial toks)).Nonempty →
        (wordRootMatch q_norm toks = true
            ∧ smartGo q_norm ((k, toks) :: rest) = (some toks, .exactRoot k.1 k.2.1 k.2.2))
        ∨ (wordRootMatch q_norm toks = false
            ∧ smartGo q_norm ((k, toks) :: rest) = smartGo q_norm rest)) := by
  intro q_norm k toks rest h1
  constructor
  · intro hne
    have h2 : surfaceStep q_norm toks = true := by
      rw [surfaceStep, decide_eq_true_eq]
      exact hne
    exact smartGo_cons_surface q_norm k toks rest h1 h2
  · intro hne
    have h2 : surfaceStep q_norm toks = false := by
      rw [surfaceStep]
      simpa using hne
    by_cases h3 : wordRootMatch q_norm toks = true
    · left
      exact ⟨h3, smartGo_cons_root q_norm k toks rest h1 h2 h3⟩
    · right
      have h3' : wordRootMatch q_norm toks = false := by simpa using h3
      refine ⟨h3', ?_⟩
      apply smartGo_cons_skip
      simp [wordMatches, h1, h2, h3']

/-- Witness for the amended C1 at the كعهن / عهن instance of the
counterexample: the lemma rule fails, the asymmetric sets intersect, and the
scan returns the verse-word with a SurfaceVariant note. -/
theorem C1_amended_query_side_unprotected_witness :
    smartGo (normalize [ACh.kaf, ACh.ain, ACh.heh, ACh.noon])
        [((1, 1, 1), [⟨1, 1, 1, 1, [ACh.ain, ACh.heh, ACh.noon], [],
          [ACh.kaf, ACh.ain, ACh.heh, ACh.noon]⟩])]
      = (some [⟨1, 1, 1, 1, [ACh.ain, ACh.heh, ACh.noon], [],
          [ACh.kaf, ACh.ain, ACh.heh, ACh.noon]⟩], .surfaceVariant 1 1 1) :=
  (C1_amended_query_side_unprotected (normalize [ACh.kaf, ACh.ain, ACh.heh, ACh.noon])
      (1, 1, 1)
      [⟨1, 1, 1, 1, [ACh.ain, ACh.heh, ACh.noon], [],
        [ACh.kaf, ACh.ain, ACh.heh, ACh.noon]⟩]
      [] (by decide)).1 (by decide)

/-- C8 counterexample at the key ةٌ (teh marbuta + dammatan): the
root-glossary normalization keeps the tanwin (giving هٌ), the composed
spec normalization drops it (giving ه), and the dictionary lookup compares by
plain normalize (giving ة) — so neither lookup uses the composed
normalization. -/
theorem C8_counterexample :
    ¬ (_normalize_root [ACh.tehMarbuta, ACh.dammatan]
        = lookupSpecNorm [ACh.tehMarbuta, ACh.dammatan])
    ∧ ¬ (normalize [ACh.tehMarbuta, ACh.dammatan]
        = lookupSpecNorm [ACh.tehMarbuta, ACh.dammatan]) := by
  decide

theorem lstrip_eq_self_of_no_space (s : List ACh) (h : ∀ c ∈ s, c ≠ ACh.space) :
    lstrip s = s := by
  apply lstrip_eq_self
  intro c hc
  cases s with
  | nil => cases hc
  | cons a t =>
    have : a = c := by simpa using hc
    subst this
    exact h a (List.mem_cons_self a t)

theorem rstrip_eq_self_of_no_space : ∀ s : List ACh, (∀ c ∈ s, c ≠ ACh.space) →
    rstrip s = s := by
  intro s
  induction s with
  | nil => intro _; rfl
  | cons a t ih =>
    intro h
    rw [rstrip_cons, ih (fun c hc => h c (List.mem_cons_of_mem a hc))]
    cases t with
    | nil => simp [h a (List.mem_cons_self a [])]
    | cons b u => simp

theorem pyStrip_eq_self_of_no_space (s : List ACh) (h : ∀ c ∈ s, c ≠ ACh.space) :
    pyStrip s = s := by
  rw [pyStrip, lstrip_eq_self_of_no_space s h, rstrip_eq_self_of_no_space s h]

theorem agree_no_space : ∀ c : ACh, lookupAgreeChar c →
    ∀ d ∈ stripUnit c, ∀ e ∈ remapChar d, e ≠ ACh.space := by
  decide

theorem lookupSpecNorm_eq_core (k : List ACh) (h : ∀ c ∈ k, lookupAgreeChar c) :
    lookupSpecNorm k = lookupSpecNormCore k := by
  rw [lookupSpecNorm, lookupSpecNormCore, normalize_eq,
    pyStrip_eq_self_of_no_space]
  intro e he
  rw [translateRemap, List.mem_flatMap] at he
  obtain ⟨d, hd, hde⟩ := he
  rw [strip_diacritics, List.mem_flatMap] at hd
  obtain ⟨c, hc, hcd⟩ := hd
  exact agree_no_space c (h c hc) d hcd e hde

theorem lookupSpecNormCore_append (x y : List ACh) :
    lookupSpecNormCore (x ++ y) = lookupSpecNormCore x ++ lookupSpecNormCore y := by
  simp [lookupSpecNormCore, chrep, translateRemap, strip_diacritics]

theorem _normalize_root_append (x y : List ACh) :
    _normalize_root (x ++ y) = _normalize_root x ++ _normalize_root y := by
  simp [_normalize_root, chrep, removeAll]

theorem lookup_agree_char : ∀ c : ACh, lookupAgreeChar c →
    _normalize_root [c] = lookupSpecNormCore [c] := by
  decide

theorem nr_eq_core : ∀ k : List ACh, (∀ c ∈ k, lookupAgreeChar c) →
    _normalize_root k = lookupSpecNormCore k := by
  intro k
  induction k with
  | nil => intro _; rfl
  | cons c t ih =>
    intro h
    have hc : lookupAgreeChar c := h c (List.mem_cons_self c t)
    have ht : ∀ x ∈ t, lookupAgreeChar x := fun x hx => h x (List.mem_cons_of_mem c hx)
    calc _normalize_root (c :: t)
        = _normalize_root ([c] ++ t) := rfl
      _ = _normalize_root [c] ++ _normalize_root t := _normalize_root_append [c] t
      _ = lookupSpecNormCore [c] ++ lookupSpecNormCore t := by
            rw [lookup_agree_char c hc, ih ht]
      _ = lookupSpecNormCore ([c] ++ t) := (lookupSpecNormCore_append [c] t).symm
      _ = lookupSpecNormCore (c :: t) := rfl

/-- C8 amended: on keys made of plain letters (including the hamza carriers
أ إ آ and ى ة), the shadda and the short vowels fatha/damma/kasra/sukun, the
root-glossary normalization `_normalize_root` does equal the Normalizer
normalize followed by ة→ه and ى→ي; on tanwin, dagger alef, tatwil, ؤ ئ ٱ or
whitespace the two differ, and the dictionary lookup compares by plain
normalize, which lacks the ة→ه mapping. -/
theorem C8_amended_agreement (k : List ACh) (h : ∀ c ∈ k, lookupAgreeChar c) :
    _normalize_root k = lookupSpecNorm k := by
  rw [lookupSpecNorm_eq_core k h]
  exact nr_eq_core k h

/-- Witness for the amended C8 at the key أَبّة: both normalizations give
ابّه. -/
theorem C8_amended_agreement_witness :
    _normalize_root [ACh.alefHamzaA, ACh.fatha, ACh.beh, ACh.shadda, ACh.tehMarbuta]
      = lookupSpecNorm [ACh.alefHamzaA, ACh.fatha, ACh.beh, ACh.shadda, ACh.tehMarbuta] :=
  C8_amended_agreement
    [ACh.alefHamzaA, ACh.fatha, ACh.beh, ACh.shadda, ACh.tehMarbuta] (by decide)

theorem addPair_mem (acc : List (Nat × Nat)) (x p : Nat × Nat) :
    p ∈ addPair acc x ↔ p ∈ acc ∨ p = x := by
  rw [addPair]
  by_cases h : x ∈ acc
  · rw [if_pos h]
    constructor
    · exact Or.inl
    · rintro (hp | rfl)
      · exact hp
      · exact h
  · rw [if_neg h]
    simp [List.mem_append]

theorem addPair_nodup (acc : List (Nat × Nat)) (x : Nat × Nat) (h : acc.Nodup) :
    (addPair acc x).Nodup := by
  rw [addPair]
  by_cases hx : x ∈ acc
  · rwa [if_pos hx]
  · rw [if_neg hx]
    rw [List.nodup_append]
    refine ⟨h, List.nodup_singleton x, ?_⟩
    intro a ha hax
    rw [List.mem_singleton] at hax
    subst hax
    exact hx ha

theorem matched_foldl_mem (q_norm : List ACh) (sf : Option Nat) :
    ∀ (l : List ((Nat × Nat) × List (Nat × List Token))) (acc : List (Nat × Nat))
      (p : Nat × Nat),
      p ∈ l.foldl (fun acc e =>
          if surahOk sf e.1.1 && e.2.any (fun g => _word_matches q_norm g.2)
          then addPair acc e.1 else acc) acc
      ↔ p ∈ acc ∨ ∃ e ∈ l, e.1 = p ∧ surahOk sf e.1.1 = true
          ∧ ∃ g ∈ e.2, _word_matches q_norm g.2 = true := by
  intro l
  induction l with
  | nil => intro acc p; simp
  | cons e rest ih =>
    intro acc p
    rw [List.foldl_cons, ih]
    by_cases hc : (surahOk sf e.1.1 && e.2.any (fun g => _word_matches q_norm g.2)) = true
    · rw [Bool.and_eq_true, List.any_eq_true] at hc
      rw [if_pos (by rw [Bool.and_eq_true, List.any_eq_true]; exact hc)]
      rw [addPair_mem]
      constructor
      · rintro ((hp | rfl) | ⟨f, hf, hrest⟩)
        · exact Or.inl hp
        · exact Or.inr ⟨e, List.mem_cons_self e rest, rfl, hc.1, hc.2⟩
        · exact Or.inr ⟨f, List.mem_cons_of_mem e hf, hrest⟩
      · rintro (hp | ⟨f, hf, hfp, hok, hg⟩)
        · exact Or.inl (Or.inl hp)
        · rcases List.mem_cons.mp hf with rfl | hf'
          · exact Or.inl (Or.inr hfp.symm)
          · exact Or.inr ⟨f, hf', hfp, hok, hg⟩
    · rw [if_neg hc]
      rw [Bool.and_eq_true, List.any_eq_true] at hc
      constructor
      · rintro (hp | ⟨f, hf, hrest⟩)
        · exact Or.inl hp
        · exact Or.inr ⟨f, List.mem_cons_of_mem e hf, hrest⟩
      · rintro (hp | ⟨f, hf, hfp, hok, hg⟩)
        · exact Or.inl hp
        · rcases List.mem_cons.mp hf with rfl | hf'
          · exact absurd ⟨hok, hg⟩ hc
          · exact Or.inr ⟨f, hf', hfp, hok, hg⟩

theorem matched_foldl_nodup (q_norm : List ACh) (sf : Option Nat) :
    ∀ (l : List ((Nat × Nat) × List (Nat × List Token))) (acc : List (Nat × Nat)),
      acc.Nodup →
      (l.foldl (fun acc e =>
          if surahOk sf e.1.1 && e.2.any (fun g => _word_matches q_norm g.2)
          then addPair acc e.1 else acc) acc).Nodup := by
  intro l
  induction l with
  | nil => intro acc h; simpa using h
  | cons e rest ih =>
    intro acc h
    rw [List.foldl_cons]
    apply ih
    by_cases hc : (surahOk sf e.1.1 && e.2.any (fun g => _word_matches q_norm g.2)) = true
    · rw [if_pos hc]
      exact addPair_nodup acc e.1 h
    · rwa [if_neg hc]

theorem matchedVerses_mem (q_norm : List ACh) (sf : Option Nat)
    (cache : List ((Nat × Nat) × List (Nat × List Token))) (p : Nat × Nat) :
    p ∈ matchedVerses q_norm sf cache
    ↔ ∃ e ∈ cache, e.1 = p ∧ surahOk sf e.1.1 = true
        ∧ ∃ g ∈ e.2, _word_matches q_norm g.2 = true := by
  rw [matchedVerses, matched_foldl_mem]
  simp

theorem matchedVerses_nodup (q_norm : List ACh) (sf : Option Nat)
    (cache : List ((Nat × Nat) × List (Nat × List Token))) :
    (matchedVerses q_norm sf cache).Nodup :=
  matched_foldl_nodup q_norm sf cache [] List.nodup_nil

/-- C6: for every query and optional surah filter, the extractor result has
exactly one entry per matching verse: it is pairwise strictly ascending by
(surah, ayah) — hence duplicate-free — and a pair (s, a) occurs in it exactly
when the cache holds a verse (s, a) passing the surah filter with at least one
word group matching by lemma, shadda-robust surface variants, or root (no
early exit: every matching verse of the whole corpus appears). -/
theorem C6_extract_sorted_complete :
    ∀ (qw : List ACh) (sf : Option Nat) (corpus : List Token),
      List.Pairwise (fun x y : Nat × Nat × List ACh =>
          x.1 < y.1 ∨ (x.1 = y.1 ∧ x.2.1 < y.2.1)) (extract qw sf corpus)
      ∧ ∀ s a : Nat,
          (∃ txt : List ACh, (s, a, txt) ∈ extract qw sf corpus)
          ↔ ∃ e ∈ loadMorphology corpus, e.1 = (s, a) ∧ surahOk sf s = true
              ∧ ∃ g ∈ e.2, _word_matches (normalize qw) g.2 = true := by
  intro qw sf corpus
  constructor
  · have hsorted : List.Sorted lexLE
        (sortPairs (matchedVerses (normalize qw) sf (loadMorphology corpus))) :=
      List.sorted_insertionSort lexLE _
    have hnodup : (sortPairs (matchedVerses (normalize qw) sf
        (loadMorphology corpus))).Nodup :=
      ((List.perm_insertionSort lexLE _).nodup_iff).mpr
        (matchedVerses_nodup (normalize qw) sf (loadMorphology corpus))
    have hpair := List.Pairwise.and hsorted hnodup
    rw [extract, List.pairwise_map]
    refine hpair.imp ?_
    intro a b hab
    obtain ⟨hle, hne⟩ := hab
    rcases hle with h | ⟨h1, h2⟩
    · exact Or.inl h
    · refine Or.inr ⟨h1, ?_⟩
      rcases Nat.lt_or_ge a.2 b.2 with h3 | h3
      · exact h3
      · exfalso
        apply hne
        have h4 : a.2 = b.2 := by omega
        exact Prod.ext h1 h4
  · intro s a
    constructor
    · rintro ⟨txt, htxt⟩
      rw [extract, List.mem_map] at htxt
      obtain ⟨p, hp, hpe⟩ := htxt
      have hps : p = (s, a) := by
        have h1 : p.1 = s := congrArg (fun x : Nat × Nat × List ACh => x.1) hpe
        have h2 : p.2 = a := by
          have := congrArg (fun x : Nat × Nat × List ACh => x.2.1) hpe
          simpa using this
        exact Prod.ext h1 h2
      subst hps
      rw [sortPairs, List.mem_insertionSort, matchedVerses_mem] at hp
      obtain ⟨e, he, he1, hok, hg⟩ := hp
      exact ⟨e, he, he1, by rwa [he1] at hok, hg⟩
    · rintro ⟨e, he, he1, hok, hg⟩
      refine ⟨_build_verse_text (cacheLookup (loadMorphology corpus) (s, a)), ?_⟩
      rw [extract, List.mem_map]
      refine ⟨(s, a), ?_, rfl⟩
      rw [sortPairs, List.mem_insertionSort, matchedVerses_mem]
      exact ⟨e, he, he1, by rwa [he1], hg⟩

/-- Witness for C6 on a one-token corpus whose single verse (2,3) matches the
query by root equality: the verse appears in the extractor result. -/
theorem C6_extract_sorted_complete_witness :
    ∃ txt : List ACh,
      (2, 3, txt) ∈ extract [ACh.seen, ACh.jeem, ACh.dal] none
        [⟨2, 3, 1, 1, [ACh.seen, ACh.jeem, ACh.dal], [],
          [ACh.seen, ACh.jeem, ACh.dal]⟩] :=
  ((C6_extract_sorted_complete [ACh.seen, ACh.jeem, ACh.dal] none
      [⟨2, 3, 1, 1, [ACh.seen, ACh.jeem, ACh.dal], [],
        [ACh.seen, ACh.jeem, ACh.dal]⟩]).2 2 3).mpr
    (by decide)

theorem ctxGet_ctxSet (ctx : Ctx) (k : String) (v : CtxVal) :
    ctxGet (ctxSet ctx k v) k = some v := by
  induction ctx with
  | nil => simp [ctxSet, ctxGet]
  | cons e t ih =>
    rw [ctxSet]
    by_cases h : e.1 = k
    · rw [if_pos h]
      rw [ctxGet, if_pos rfl]
    · rw [if_neg h]
      rw [ctxGet, if_neg h, ih]

theorem failOrCont_halt (ctx : Ctx) (cache : Option (List Token)) (f : Option String)
    (ctx2 : Ctx) (h : failOrCont ctx cache f = .halt ctx2) :
    ∃ msg : String, f = some msg ∧ ctxGet ctx2 "error_message" = some (.msg msg) := by
  cases f with
  | none => exact StepOutcome.noConfusion h
  | some m =>
    simp only [failOrCont] at h
    injection h with h
    exact ⟨m, rfl, by rw [← h]; exact ctxGet_ctxSet ctx "error_message" (.msg m)⟩

theorem runStep_halt_msg (env : DispatchEnv) (target : List ACh) (surah : Option Nat)
    (ctx : Ctx) (cache : Option (List Token)) (st : StepT) (ctx2 : Ctx)
    (h : runStep env target surah ctx cache st = .halt ctx2) :
    ∃ msg : String, stepOnFail st = some msg
      ∧ ctxGet ctx2 "error_message" = some (.msg msg) := by
  cases st with
  | post p => exact StepOutcome.noConfusion h
  | method m f =>
    cases m <;>
      simp only [runStep] at h <;>
      (repeat' split at h) <;>
      first
        | exact StepOutcome.noConfusion h
        | exact failOrCont_halt _ _ _ _ h

/-- C9: for every environment, target and surah, a step of the dispatch
sequence that halts the loop always carries an on_fail message, that exact
message is the error_message of the returned bundle, and the returned bundle
is the one built so far regardless of whatever steps follow (so no key of a
later step can appear).  A step without an on_fail message never halts, and a
continuing step just passes its updated context and cache to the rest of the
sequence. -/
theorem C9_on_fail_short_circuit :
    ∀ (env : DispatchEnv) (target : List ACh) (surah : Option Nat)
      (st : StepT) (ctx : Ctx) (cache : Option (List Token)),
      (∀ ctx2 : Ctx, runStep env target surah ctx cache st = .halt ctx2 →
        (∃ msg : String, stepOnFail st = some msg
            ∧ ctxGet ctx2 "error_message" = some (.msg msg))
        ∧ ∀ rest : List StepT,
            runSteps env target surah (st :: rest) ctx cache = ctx2)
      ∧ (stepOnFail st = none →
          ∃ (c : Ctx) (k : Option (List Token)),
            runStep env target surah ctx cache st = .cont c k)
      ∧ ∀ (c : Ctx) (k : Option (List Token)),
          runStep env target surah ctx cache st = .cont c k →
          ∀ rest : List StepT,
            runSteps env target surah (st :: rest) ctx cache
              = runSteps env target surah rest c k := by
  intro env target surah st ctx cache
  refine ⟨?_, ?_, ?_⟩
  · intro ctx2 h
    refine ⟨runStep_halt_msg env target surah ctx cache st ctx2 h, ?_⟩
    intro rest
    simp only [runSteps, h]
  · intro hf
    cases hstep : runStep env target surah ctx cache st with
    | cont c k => exact ⟨c, k, rfl⟩
    | halt c =>
      obtain ⟨msg, hmsg, _⟩ := runStep_halt_msg env target surah ctx cache st c hstep
      rw [hf] at hmsg
      exact Option.noConfusion hmsg
  · intro c k h rest
    simp only [runSteps, h]

/-- Witness for C9: with an empty corpus, a failing `lemma_match` step whose
on_fail text is that of the meaning_word sequence halts with exactly that
error message, whatever the remaining steps are. -/
theorem C9_on_fail_short_circuit_witness :
    (∃ msg : String,
        stepOnFail (.method .lemma_match
          (some "The word you provided does not exist in the Quranic database."))
          = some msg
        ∧ ctxGet [("error_message",
            CtxVal.msg "The word you provided does not exist in the Quranic database.")]
            "error_message" = some (.msg msg))
    ∧ ∀ rest : List StepT,
        runSteps ⟨[], [], fun _ => none, fun _ => none⟩ [ACh.beh] none
          (StepT.method .lemma_match
            (some "The word you provided does not exist in the Quranic database.") :: rest)
          [] none
          = [("error_message",
              CtxVal.msg "The word you provided does not exist in the Quranic database.")] :=
  (C9_on_fail_short_circuit ⟨[], [], fun _ => none, fun _ => none⟩ [ACh.beh] none
      (StepT.method .lemma_match
        (some "The word you provided does not exist in the Quranic database."))
      [] none).1
    [("error_message",
      CtxVal.msg "The word you provided does not exist in the Quranic database.")]
    (by decide)

/-- C7 counterexample: with a cache whose first root-bearing token has root ب
but whose second token matches the target by harakat-stripped token equality
and carries root ج, the root argument handed to the glossary lookup is ج, not
the root ب of the first root-bearing token the claim prescribes. -/
theorem C7_counterexample :
    deriveRootArg [ACh.kaf, ACh.teh]
        (some [⟨1, 1, 1, 1, [ACh.dal], [], [ACh.beh]⟩,
               ⟨1, 1, 2, 1, [ACh.kaf, ACh.teh], [], [ACh.jeem]⟩])
      = [ACh.jeem]
    ∧ (List.find? (fun t : Token => decide (t.root ≠ []))
        ([⟨1, 1, 1, 1, [ACh.dal], [], [ACh.beh]⟩,
          ⟨1, 1, 2, 1, [ACh.kaf, ACh.teh], [], [ACh.jeem]⟩] : List Token)).map
          (fun t => t.root)
      = some [ACh.beh]
    ∧ ([ACh.jeem] : List ACh) ≠ [ACh.beh] := by
  decide

/-- C7 amended: the root argument passed to the glossary lookup follows this
preference order: first the earliest cached token at the hardcoded location
(37, 140, 2); otherwise the earliest cached token whose harakat-stripped
token or lemma equals the harakat-stripped target.  The preferred token
supplies its root when that root is non-empty; a root-less preferred token,
or the absence of any preferred token, falls back to the root of the first
cached token carrying one, and finally to the original target string.  The
primary glossary lookup result stands when it succeeds, and one retry with
the original target happens exactly when the primary lookup fails and the
target differs from the derived root argument. -/
theorem C7_amended_root_argument :
    ∀ (target : List ACh) (cache : List Token) (glossary : List GEntry),
      (∀ t : Token,
        cache.find? (fun u =>
          decide (u.surah = 37 ∧ u.ayah = 140 ∧ u.word_index = 2)) = some t →
        t.root ≠ [] →
        deriveRootArg target (some cache) = t.root)
      ∧ (∀ t : Token,
        cache.find? (fun u =>
          decide (u.surah = 37 ∧ u.ayah = 140 ∧ u.word_index = 2)) = none →
        cache.find? (fun u =>
          decide (stripShortVowels u.token = stripShortVowels target
            ∨ stripShortVowels u.lem = stripShortVowels target)) = some t →
        t.root ≠ [] →
        deriveRootArg target (some cache) = t.root)
      ∧ (∀ t : Token,
        (cache.find? (fun u =>
            decide (u.surah = 37 ∧ u.ayah = 140 ∧ u.word_index = 2)) = some t
          ∨ (cache.find? (fun u =>
              decide (u.surah = 37 ∧ u.ayah = 140 ∧ u.word_index = 2)) = none
            ∧ cache.find? (fun u =>
              decide (stripShortVowels u.token = stripShortVowels target
                ∨ stripShortVowels u.lem = stripShortVowels target)) = some t)) →
        t.root = [] →
        deriveRootArg target (some cache)
          = (match (cache.find? (fun u => decide (u.root ≠ []))).map
                (fun u => u.root) with
             | some r => r
             | none => target))
      ∧ (cache.find? (fun u =>
          decide (u.surah = 37 ∧ u.ayah = 140 ∧ u.word_index = 2)) = none →
        cache.find? (fun u =>
          decide (stripShortVowels u.token = stripShortVowels target
            ∨ stripShortVowels u.lem = stripShortVowels target)) = none →
        deriveRootArg target (some cache)
          = (match (cache.find? (fun u => decide (u.root ≠ []))).map
                (fun u => u.root) with
             | some r => r
             | none => target))
      ∧ (root_lookup_combined (deriveRootArg target (some cache)) glossary = none →
          target ≠ deriveRootArg target (some cache) →
          rootLookupData glossary target (some cache)
            = root_lookup_combined target glossary)
      ∧ ∀ e : GEntry,
          root_lookup_combined (deriveRootArg target (some cache)) glossary = some e →
          rootLookupData glossary target (some cache) = some e := by
  intro target cache glossary
  refine ⟨?_, ?_, ?_, ?_, ?_, ?_⟩
  · intro t hloc hroot
    cases cache with
    | nil => simp at hloc
    | cons t0 ts =>
      simp only [deriveRootArg, hloc]
      rw [if_pos hroot]
  · intro t hloc hnorm hroot
    cases cache with
    | nil => simp at hnorm
    | cons t0 ts =>
      simp only [deriveRootArg, hloc, hnorm]
      rw [if_pos hroot]
  · intro t hpref hroot
    rcases hpref with hloc | ⟨hloc, hnorm⟩
    · cases cache with
      | nil => simp at hloc
      | cons t0 ts =>
        simp only [deriveRootArg, hloc]
        rw [if_neg (fun hne => hne hroot)]
    · cases cache with
      | nil => simp at hnorm
      | cons t0 ts =>
        simp only [deriveRootArg, hloc, hnorm]
        rw [if_neg (fun hne => hne hroot)]
  · intro h37 hnorm
    cases cache with
    | nil => rfl
    | cons t0 ts =>
      simp only [deriveRootArg, h37, hnorm]
  · intro h1 h2
    simp only [rootLookupData]
    rw [if_pos ⟨h1, h2⟩]
  · intro e he
    simp only [rootLookupData]
    rw [if_neg (by simp [he]), he]

/-- Witness for the amended C7 exercising the hardcoded-location preference:
the cache holds a root-bearing token ب first and a token at (37, 140, 2) with
root ج second, and the derived root argument is ج — the location-preferred
root, not the first root-bearing one. -/
theorem C7_amended_root_argument_witness :
    deriveRootArg [ACh.qaf]
        (some [⟨1, 1, 1, 1, [ACh.dal], [], [ACh.beh]⟩,
               ⟨37, 140, 2, 1, [ACh.meem], [], [ACh.jeem]⟩])
      = [ACh.jeem] :=
  (C7_amended_root_argument [ACh.qaf]
      [⟨1, 1, 1, 1, [ACh.dal], [], [ACh.beh]⟩,
       ⟨37, 140, 2, 1, [ACh.meem], [], [ACh.jeem]⟩] []).1
    ⟨37, 140, 2, 1, [ACh.meem], [], [ACh.jeem]⟩ (by decide) (by decide)

/-- C5 counterexample: corpus with one verse-word matching سجد by lemma and a
second one matching only by root equality.  The claim predicts
occurrence_count = 2 (both verse-words match one of the three rules), but the
dispatcher counts only the word-level matches of `lemma_match_surah_filter`
(lemma or shadda-robust surface variants) — root-equality verse-words are
never counted once any word-level match exists — giving 1. -/
theorem C5_counterexample :
    ctxGet (dispatch_retrieval
        ⟨[⟨1, 1, 1, 1, [ACh.feh, ACh.alef], [ACh.seen, ACh.jeem, ACh.dal],
            [ACh.beh, ACh.ain, ACh.dal]⟩,
          ⟨2, 2, 2, 1, [ACh.qaf, ACh.meem], [], [ACh.seen, ACh.jeem, ACh.dal]⟩],
          [], fun _ => none, fun _ => none⟩
        "frequency_word_root" [ACh.seen, ACh.jeem, ACh.dal] none) "occurrence_count"
      = some (.num 1)
    ∧ claimedFrequency
        [⟨1, 1, 1, 1, [ACh.feh, ACh.alef], [ACh.seen, ACh.jeem, ACh.dal],
            [ACh.beh, ACh.ain, ACh.dal]⟩,
         ⟨2, 2, 2, 1, [ACh.qaf, ACh.meem], [], [ACh.seen, ACh.jeem, ACh.dal]⟩]
        [ACh.seen, ACh.jeem, ACh.dal] = 2
    ∧ (1 : Nat) ≠ 2 := by
  decide

theorem root_match_ne_nil (corpus : List Token) (w : List ACh) (l : List Token)
    (h : root_match corpus w = some l) : l ≠ [] := by
  simp only [root_match] at h
  split at h
  · rename_i hms
    injection h with h
    subst h
    exact hms
  · exact Option.noConfusion h

theorem lmsf_ne_nil (corpus : List Token) (w : List ACh) (surah : Option Nat)
    (l : List Token) (h : lemma_match_surah_filter corpus w surah = some l) :
    l ≠ [] := by
  simp only [lemma_match_surah_filter] at h
  split at h
  · rename_i hms
    injection h with h
    subst h
    exact hms
  · split at h
    · rename_i rt hrt
      split at h
      · split at h
        · rename_i hft
          injection h with h
          subst h
          exact hft
        · exact Option.noConfusion h
      · injection h with h
        subst h
        exact root_match_ne_nil corpus w _ hrt
    · exact Option.noConfusion h

/-- C5 amended: occurrence_count is the number of distinct (surah, ayah,
word_index) triples among the tokens `lemma_match_surah_filter` returns —
the verse-words matching by lemma or by shadda-robust surface variants when
at least one exists, and only otherwise the root-match fallback tokens — not
the triples of all verse-words matching the three matcher rules; when even
the fallback fails, the bundle holds only the on_fail error message and no
count at all. -/
theorem C5_amended_frequency :
    ∀ (env : DispatchEnv) (target : List ACh),
      (∀ toks : List Token,
        lemma_match_surah_filter env.corpus target none = some toks →
        ctxGet (dispatch_retrieval env "frequency_word_root" target none)
            "occurrence_count" = some (.num (tripleSet toks).length))
      ∧ (lemma_match_surah_filter env.corpus target none = none →
        dispatch_retrieval env "frequency_word_root" target none
          = [("error_message", .msg "The word was not found in the specified surah.")]) := by
  intro env target
  constructor
  · intro toks h
    obtain ⟨t, ts, rfl⟩ : ∃ u us, toks = u :: us := by
      cases toks with
      | nil => exact absurd rfl (lmsf_ne_nil env.corpus target none [] h)
      | cons u us => exact ⟨u, us, rfl⟩
    have h1 : dispatch_retrieval env "frequency_word_root" target none
        = runSteps env target none
            [.method .lemma_match_surah_filter
              (some "The word was not found in the specified surah."),
             .post .count] [] none := rfl
    have hstep : runStep env target none [] none
        (.method .lemma_match_surah_filter
          (some "The word was not found in the specified surah."))
        = .cont [] (some (t :: ts)) := by
      simp [runStep, primaryCall, h, asTokenCache]
    rw [h1]
    simp only [runSteps]
    rw [hstep]
    rfl
  · intro h
    have h1 : dispatch_retrieval env "frequency_word_root" target none
        = runSteps env target none
            [.method .lemma_match_surah_filter
              (some "The word was not found in the specified surah."),
             .post .count] [] none := rfl
    have hstep : runStep env target none [] none
        (.method .lemma_match_surah_filter
          (some "The word was not found in the specified surah."))
        = .halt [("error_message",
            .msg "The word was not found in the specified surah.")] := by
      simp [runStep, primaryCall, h, asTokenCache, failOrCont, ctxSet]
    rw [h1]
    simp only [runSteps]
    rw [hstep]

/-- Witness for the amended C5 at the counterexample corpus: the word-level
match returns exactly the tokens of the lemma-matching verse-word (1,1,1), so
the count is 1. -/
theorem C5_amended_frequency_witness :
    ctxGet (dispatch_retrieval
        ⟨[⟨1, 1, 1, 1, [ACh.feh, ACh.alef], [ACh.seen, ACh.jeem, ACh.dal],
            [ACh.beh, ACh.ain, ACh.dal]⟩,
          ⟨2, 2, 2, 1, [ACh.qaf, ACh.meem], [], [ACh.seen, ACh.jeem, ACh.dal]⟩],
          [], fun _ => none, fun _ => none⟩
        "frequency_word_root" [ACh.seen, ACh.jeem, ACh.dal] none) "occurrence_count"
      = some (.num (tripleSet
          [⟨1, 1, 1, 1, [ACh.feh, ACh.alef], [ACh.seen, ACh.jeem, ACh.dal],
            [ACh.beh, ACh.ain, ACh.dal]⟩]).length) :=
  (C5_amended_frequency
      ⟨[⟨1, 1, 1, 1, [ACh.feh, ACh.alef], [ACh.seen, ACh.jeem, ACh.dal],
          [ACh.beh, ACh.ain, ACh.dal]⟩,
        ⟨2, 2, 2, 1, [ACh.qaf, ACh.meem], [], [ACh.seen, ACh.jeem, ACh.dal]⟩],
        [], fun _ => none, fun _ => none⟩
      [ACh.seen, ACh.jeem, ACh.dal]).1
    [⟨1, 1, 1, 1, [ACh.feh, ACh.alef], [ACh.seen, ACh.jeem, ACh.dal],
        [ACh.beh, ACh.ain, ACh.dal]⟩]
    (by decide)

end QC
